import Mathlib

/-!
Verification of the `internal/buffered` write-buffering layer of ebiten.

The buffered layer (`Image` in package `buffered`) wraps a GPU-resident
"mipmap" resource and buffers fills / pixel writes locally, resolving them
to the resource lazily.  The mipmap collaborator and the command-deferral
queue helpers (`tryAddDelayedCommand` / `flushDelayedCommands`) live outside
the given sources and are modelled from the spec where noted; everything on
the `Image` type itself is translated directly from the source.

Conventions: Go byte slices are `List Nat` (each entry a byte value), Go
`int` is `Int` where a value can be negative (region coordinates) and `Nat`
for sizes fixed at image creation.  A Go `panic` is represented by a
distinguished error/`Option.none` result, never by a silent default value on
any path a theorem below depends on.
-/

set_option linter.unusedVariables false

/-- RGBA color with byte components, mirroring Go's `color.RGBA`. -/
structure RGBA where
  r : Nat
  g : Nat
  b : Nat
  a : Nat
deriving DecidableEq, Repr

/-- Modelled from the spec: the GPU-touching calls the buffered layer can
issue on the Resolved Resource (the `internal/mipmap` collaborator, which is
not part of the given sources).  A trace of these calls is what "pushed to
the resource" / "GPU round-trip" means in the spec. -/
inductive GpuOp where
  | fill (c : RGBA)
  | replacePixels (pix : List Nat)
  | readPixels
  | drawImage
  | drawTriangles
  | dispose
deriving DecidableEq, Repr

/-- Modelled from the spec: the Resolved Resource (`mipmap.Mipmap`), an
external collaborator owning the authoritative pixel data once resolution
occurs.  `pix` is its current full-image content (row-major RGBA),
`trace` the ordered log of GPU calls made on it, and `readErr` an injected
resource-level failure for `readPixels` (spec §7: resource errors are
surfaced from readback calls). -/
structure Mipmap where
  width : Nat
  height : Nat
  pix : List Nat
  trace : List GpuOp
  readErr : Option Nat
deriving DecidableEq, Repr

/-- Bytes of `n` pixels of a solid color, row-major RGBA. -/
def fillBytes (c : RGBA) (n : Nat) : List Nat :=
  (List.replicate n [c.r, c.g, c.b, c.a]).flatten

/-- Modelled from the spec: `fill(color)` on the Resolved Resource makes the
whole image that solid color. -/
def Mipmap.Fill (m : Mipmap) (c : RGBA) : Mipmap :=
  { m with pix := fillBytes c (m.width * m.height), trace := m.trace ++ [.fill c] }

/-- Modelled from the spec: full-size `replacePixels(buf)` on the Resolved
Resource. -/
def Mipmap.ReplacePixels (m : Mipmap) (p : List Nat) : Mipmap :=
  { m with pix := p, trace := m.trace ++ [.replacePixels p] }

/-- Modelled from the spec: full-image `readPixels` on the Resolved Resource;
fails with the injected resource error when one is present.  The buffered
layer only ever reads the full image (`img.img.Pixels(0, 0, width, height)`). -/
def Mipmap.Pixels (m : Mipmap) : Except Nat (List Nat) × Mipmap :=
  match m.readErr with
  | some e => (.error e, { m with trace := m.trace ++ [.readPixels] })
  | none => (.ok m.pix, { m with trace := m.trace ++ [.readPixels] })

/-- Modelled from the spec: disposal of the Resolved Resource. -/
def Mipmap.MarkDisposed (m : Mipmap) : Mipmap :=
  { m with trace := m.trace ++ [.dispose] }

/-- Modelled from the spec: a draw-image submission on the Resolved Resource. -/
def Mipmap.DrawImage (m : Mipmap) : Mipmap :=
  { m with trace := m.trace ++ [.drawImage] }

/-- Modelled from the spec: a draw-triangles submission on the Resolved
Resource. -/
def Mipmap.DrawTriangles (m : Mipmap) : Mipmap :=
  { m with trace := m.trace ++ [.drawTriangles] }

/-- Go's `copy(dst[off:off+n], src)` pattern on whole lists: writes `src`
into `dst` starting at byte `off`, copying `min (src.length) (dst.length - off)`
bytes (Go `copy` truncates to the shorter slice); the length of `dst` is
preserved. -/
def listCopy (dst : List Nat) (off : Nat) (src : List Nat) : List Nat :=
  dst.take off ++ src.take (dst.length - off) ++ dst.drop (off + src.length)

/-- Go's `image.Rect(x0,y0,x1,y1).In(image.Rect(0,0,W,H))`: `image.Rect`
canonicalizes by swapping so that min ≤ max, and `In` returns `true` for an
empty rectangle regardless of the bounds. -/
def goRectIn (x0 y0 x1 y1 W H : Int) : Bool :=
  decide ((max x0 x1 ≤ min x0 x1 ∨ max y0 y1 ≤ min y0 y1) ∨
    (0 ≤ min x0 x1 ∧ max x0 x1 ≤ W ∧ 0 ≤ min y0 y1 ∧ max y0 y1 ≤ H))

/-- Errors and panics of the buffered layer.  `outOfRange` is the recoverable
`buffered: out of range` error; `resource e` propagates a mipmap readback
failure `e`; the `panic*` constructors stand for Go runtime panics
(`make` with negative length, slice-bounds violation in a copy loop,
`len(pix)` mismatch in `ReplacePixels`, draw aliasing / resolve-invariant
panics). -/
inductive BufErr where
  | outOfRange
  | resource (e : Nat)
  | panicNegSize
  | panicSlice
  | panicSize
  | panicDraw
deriving DecidableEq, Repr

instance {ε α : Type} [DecidableEq ε] [DecidableEq α] : DecidableEq (Except ε α) := by
  intro a b
  cases a <;> cases b <;> first
    | (apply isFalse; intro h; exact Except.noConfusion h)
    | (rename_i x y
       exact if h : x = y then isTrue (by rw [h]) else
        isFalse (by intro hc; cases hc; exact h rfl))

/-- The buffered `Image` (source `part_000`, lines 28–38): a mipmap resource
plus the pending-state fields `hasFill`/`fillColor` (buffered fill) and
`pixels`/`needsToResolvePixels` (buffered full-image pixel array). -/
structure Image where
  img : Mipmap
  width : Nat
  height : Nat
  hasFill : Bool
  fillColor : RGBA
  pixels : Option (List Nat)
  needsToResolvePixels : Bool
deriving DecidableEq, Repr

def RGBA.zero : RGBA := ⟨0, 0, 0, 0⟩

/-- A freshly created image (`NewImage` → `initialize` after the deferral
check): a new mipmap of the same size and no pending state.  The mipmap's
initial content is modelled from the spec as fully transparent (all-zero)
bytes with an empty call trace and no injected read failure. -/
def mkImage (w h : Nat) : Image :=
  { img := { width := w, height := h, pix := List.replicate (4 * (w * h)) 0,
             trace := [], readErr := none },
    width := w, height := h, hasFill := false, fillColor := RGBA.zero,
    pixels := none, needsToResolvePixels := false }

/-- Source `invalidatePendingPixels` (lines 88–92): clears the pixel buffer,
the resolve flag and the fill flag together. -/
def Image.invalidatePendingPixels (i : Image) : Image :=
  { i with pixels := none, needsToResolvePixels := false, hasFill := false }

/-- Source `resolvePendingFill` (lines 108–114): pushes a pending fill to the
resource and clears the flag. -/
def Image.resolvePendingFill (i : Image) : Image :=
  if i.hasFill then { i with img := i.img.Fill i.fillColor, hasFill := false }
  else i

/-- Source `resolvePendingPixels` (lines 94–106).  The returned `Bool` is
`true` exactly when the Go code panics ("needsToResolvePixels and hasFill
must not be true at the same time"), in which case the state is returned
unchanged (the panic fires before any mutation).  When `needsToResolvePixels`
is set the pixel buffer is pushed to the resource, dropped unless
`keepPendingPixels`, and the flag cleared; then any pending fill is resolved. -/
def Image.resolvePendingPixels (i : Image) (keepPendingPixels : Bool) : Bool × Image :=
  if i.needsToResolvePixels && i.hasFill then
    (true, i)
  else if i.needsToResolvePixels then
    let i' := { i with
      img := i.img.ReplacePixels (i.pixels.getD []),
      pixels := if keepPendingPixels then i.pixels else none,
      needsToResolvePixels := false }
    (false, i'.resolvePendingFill)
  else
    (false, i.resolvePendingFill)

/-- Source `MarkDisposed` (lines 116–125), after the deferral check:
invalidate pending state, dispose the resource. -/
def Image.MarkDisposed (i : Image) : Image :=
  { i.invalidatePendingPixels with img := i.img.MarkDisposed }

/-- Source `Fill` (lines 197–209), after the deferral check: invalidate
pending state, record the fill color, set the fill flag (the fill itself is
deferred so successive fills merge). -/
def Image.Fill (i : Image) (clr : RGBA) : Image :=
  { i.invalidatePendingPixels with fillColor := clr, hasFill := true }

/-- One iteration of the row-copy loop of source `Pixels` (lines 156–158):
`copy(pix[4*j*width:4*(j+1)*width], img.pixels[4*((j+y)*img.width+x):])`.
Slicing `img.pixels[srcLo:]` panics (result `none`) when `srcLo` is negative
or beyond the cache length; Go `copy` then copies the shorter of the two
slice lengths. -/
def pixCopyRow (cache : List Nat) (W : Nat) (x y w : Int) (acc : List Nat)
    (j : Nat) : Option (List Nat) :=
  let srcLo : Int := 4 * (((j : Int) + y) * (W : Int) + x)
  if srcLo < 0 ∨ (cache.length : Int) < srcLo then none
  else
    some (listCopy acc (4 * (j : Int) * w).toNat
      ((cache.drop srcLo.toNat).take (4 * w).toNat))

/-- The full row-copy loop of source `Pixels`: starts from the `make`-zeroed
destination buffer and copies `height` rows out of the cached full image. -/
def pixCopy (cache : List Nat) (W : Nat) (x y w h : Int) : Option (List Nat) :=
  (List.range h.toNat).foldlM (fun acc j => pixCopyRow cache W x y w acc j)
    (List.replicate (4 * w * h).toNat 0)

/-- Source `Pixels` (lines 127–160), after `checkDelayedCommandsFlushed`:
range check via `image.Rect ... In`, then either synthesize from a pending
fill, or serve from the cached pixel buffer (reading the whole image back
from the resource first when no cache exists), copying out the requested
sub-rectangle.  Returns the result together with the updated image. -/
def Image.Pixels (i : Image) (x y width height : Int) :
    Except BufErr (List Nat) × Image :=
  if goRectIn x y (x + width) (y + height) (i.width : Int) (i.height : Int) = false then
    (.error .outOfRange, i)
  else if 4 * width * height < 0 then
    (.error .panicNegSize, i)
  else if i.hasFill then
    (.ok (fillBytes i.fillColor (width * height).toNat), i)
  else
    match i.pixels with
    | none =>
      match i.img.Pixels with
      | (.error e, m) => (.error (.resource e), { i with img := m })
      | (.ok full, m) =>
        let i' := { i with img := m, pixels := some full }
        match pixCopy full i.width x y width height with
        | none => (.error .panicSlice, i')
        | some out => (.ok out, i')
    | some cache =>
      match pixCopy cache i.width x y width height with
      | none => (.error .panicSlice, i)
      | some out => (.ok out, i)

/-- One iteration of the row-copy loop of source `replacePendingPixels`
(lines 256–258): `copy(i.pixels[4*((j+y)*i.width+x):], pix[4*j*width:4*(j+1)*width])`.
Slicing `i.pixels[dstLo:]` panics (`none`) when `dstLo` is negative or beyond
the buffer length. -/
def replaceRow (W : Nat) (x y w : Int) (pix : List Nat) (acc : List Nat)
    (j : Nat) : Option (List Nat) :=
  let dstLo : Int := 4 * (((j : Int) + y) * (W : Int) + x)
  if dstLo < 0 ∨ (acc.length : Int) < dstLo then none
  else
    some (listCopy acc dstLo.toNat
      ((pix.drop (4 * (j : Int) * w).toNat).take (4 * w).toNat))

/-- Source `replacePendingPixels` (lines 255–260): copies the sub-rectangle
rows of `pix` into the pending pixel buffer and sets the resolve flag. -/
def Image.replacePendingPixels (i : Image) (pix : List Nat) (x y width height : Int) :
    Option Image :=
  match (List.range height.toNat).foldlM
      (fun acc j => replaceRow i.width x y width pix acc j) (i.pixels.getD []) with
  | none => none
  | some newPixels =>
    some { i with pixels := some newPixels, needsToResolvePixels := true }

/-- Source `ReplacePixels` (lines 211–253), after the deferral check: panic
on a wrong-sized buffer; full-region writes invalidate pending state and
install a copy of the buffer as the pending pixels; partial writes first
resolve any pending fill, read the whole image back from the resource when no
local buffer exists, then splice the sub-rectangle in. -/
def Image.ReplacePixels (i : Image) (pix : List Nat) (x y width height : Int) :
    Except BufErr Unit × Image :=
  if (pix.length : Int) ≠ 4 * width * height then
    (.error .panicSize, i)
  else if x = 0 ∧ y = 0 ∧ width = (i.width : Int) ∧ height = (i.height : Int) then
    (.ok (), { i.invalidatePendingPixels with
      pixels := some pix,
      needsToResolvePixels := true })
  else
    let i₁ := i.resolvePendingFill
    match i₁.pixels with
    | none =>
      match i₁.img.Pixels with
      | (.error e, m) => (.error (.resource e), { i₁ with img := m })
      | (.ok full, m) =>
        let i₂ := { i₁ with img := m, pixels := some full }
        match i₂.replacePendingPixels pix x y width height with
        | none => (.error .panicSlice, i₂)
        | some i₃ => (.ok (), i₃)
    | some _ =>
      match i₁.replacePendingPixels pix x y width height with
      | none => (.error .panicSlice, i₁)
      | some i₃ => (.ok (), i₃)

/-- Source `CopyPixels` (lines 262–278) with `img == i` (the receiver passed
as its own source, which the code does not rule out): read the region from
the image itself, then `ReplacePixels(pix, 0, 0, width, height)` on it. -/
def Image.CopyPixelsSelf (i : Image) (x y width height : Int) :
    Except BufErr Unit × Image :=
  match i.Pixels x y width height with
  | (.error e, i') => (.error e, i')
  | (.ok pix, i') => i'.ReplacePixels pix 0 0 width height

/-- Source `CopyPixels` (lines 262–278) with distinct receiver and source
images: read the region from `src`, full/partial-replace it into the
receiver at the origin.  Returns (result, receiver, source). -/
def Image.CopyPixels (i : Image) (src : Image) (x y width height : Int) :
    Except BufErr Unit × Image × Image :=
  match src.Pixels x y width height with
  | (.error e, src') => (.error e, i, src')
  | (.ok pix, src') =>
    match i.ReplacePixels pix 0 0 width height with
    | (r, i') => (r, i', src')

/-- An image uniform-or-other draw-triangles uniform value, mirroring the
`interface{}` uniforms list in which only `*Image` entries matter here; an
image is identified by its slot in the heap (Go pointer identity). -/
inductive Uni where
  | img (id : Nat)
  | other
deriving DecidableEq, Repr

/-- Source `DrawTriangles` lines 314–322: the source list is `src` (when
non-nil) followed by every image-typed uniform, in order. -/
def trianglesSrcs (src : Option Nat) (uniforms : List Uni) : List Nat :=
  (match src with | some s => [s] | none => []) ++
    uniforms.filterMap (fun u => match u with | .img s => some s | .other => none)

/-- Resolve each source image with `keepPendingPixels = true` in order
(source lines 338–340), stopping at the first resolve panic. -/
def resolveSrcs (H : Nat → Image) : List Nat → Bool × (Nat → Image)
  | [] => (false, H)
  | s :: rest =>
    let (p, s') := (H s).resolvePendingPixels true
    let H' := Function.update H s s'
    if p then (true, H') else resolveSrcs H' rest

/-- Source lines 347–356: the uniforms conversion loop.  For each image-typed
uniform the Go code calls `i.resolvePendingPixels(true)` on the receiver
(not on the uniform image) — reproduced faithfully here. -/
def resolveUniformsQuirk (H : Nat → Image) (dst : Nat) :
    List Uni → Bool × (Nat → Image)
  | [] => (false, H)
  | .img _ :: rest =>
    let (p, d') := (H dst).resolvePendingPixels true
    let H' := Function.update H dst d'
    if p then (true, H') else resolveUniformsQuirk H' dst rest
  | .other :: rest => resolveUniformsQuirk H dst rest

/-- Source `DrawImage`/`drawImage` (lines 280–308) over a heap of images
indexed by Go pointer identity, after the deferral check.  The receiver must
differ from the source or the call panics (returned `Bool = true`) before
anything is resolved or issued; otherwise the source is resolved keeping its
buffer, the receiver resolved dropping its buffer, and a draw is submitted. -/
def DrawImage (H : Nat → Image) (dst src : Nat) : Bool × (Nat → Image) :=
  if dst = src then (true, H)
  else
    let (p1, s') := (H src).resolvePendingPixels true
    let H1 := Function.update H src s'
    if p1 then (true, H1)
    else
      let (p2, d') := (H1 dst).resolvePendingPixels false
      let H2 := Function.update H1 dst d'
      if p2 then (true, H2)
      else (false, Function.update H2 dst { d' with img := d'.img.DrawImage })

/-- Source `DrawTriangles` (lines 313–363) over a heap of images, after the
deferral check: collect the sources, panic (`true`) if the receiver appears
among them before anything is resolved, otherwise resolve sources keeping
their buffers, resolve the receiver dropping its buffer, run the uniforms
loop, and submit the draw. -/
def DrawTriangles (H : Nat → Image) (dst : Nat) (src : Option Nat)
    (uniforms : List Uni) : Bool × (Nat → Image) :=
  let srcs := trianglesSrcs src uniforms
  if dst ∈ srcs then (true, H)
  else
    let (p1, H1) := resolveSrcs H srcs
    if p1 then (true, H1)
    else
      let (p2, d') := (H1 dst).resolvePendingPixels false
      let H2 := Function.update H1 dst d'
      if p2 then (true, H2)
      else
        let (p3, H3) := resolveUniformsQuirk H2 dst uniforms
        if p3 then (true, H3)
        else (false, Function.update H3 dst
          { (H3 dst) with img := (H3 dst).img.DrawTriangles })

/-- A captured mutating call, encoded as data (spec §3 "Command Deferral
Queue": a replay closure plus an eagerly-copied argument snapshot; buffer
arguments are values here, so the eager copy is implicit). -/
inductive Cmd where
  | initImage (id : Nat) (w h : Nat)
  | fill (id : Nat) (c : RGBA)
  | replacePixels (id : Nat) (pix : List Nat) (x y w h : Int)
  | copyPixels (dst src : Nat) (x y w h : Int)
  | drawImage (dst src : Nat)
  | drawTriangles (dst : Nat) (src : Option Nat) (uniforms : List Uni)
  | markDisposed (id : Nat)
deriving DecidableEq, Repr

/-- Execute one replayed command against the heap, returning the optional
error its replay produces (a draw panic is reported as `panicDraw`). -/
def execCmd (H : Nat → Image) : Cmd → (Nat → Image) × Option BufErr
  | .initImage id w h => (Function.update H id (mkImage w h), none)
  | .fill id c => (Function.update H id ((H id).Fill c), none)
  | .replacePixels id pix x y w h =>
    match (H id).ReplacePixels pix x y w h with
    | (.ok _, i') => (Function.update H id i', none)
    | (.error e, i') => (Function.update H id i', some e)
  | .copyPixels dst src x y w h =>
    if dst = src then
      match (H dst).CopyPixelsSelf x y w h with
      | (.ok _, i') => (Function.update H dst i', none)
      | (.error e, i') => (Function.update H dst i', some e)
    else
      match (H dst).CopyPixels (H src) x y w h with
      | (r, i', s') =>
        (Function.update (Function.update H dst i') src s',
         match r with | .ok _ => none | .error e => some e)
  | .drawImage dst src =>
    match DrawImage H dst src with
    | (p, H') => (H', if p then some .panicDraw else none)
  | .drawTriangles dst src uniforms =>
    match DrawTriangles H dst src uniforms with
    | (p, H') => (H', if p then some .panicDraw else none)
  | .markDisposed id => (Function.update H id (H id).MarkDisposed, none)

/-- Execute a list of replayed commands in order, stopping at the first
error, exactly as `flushDelayedCommands` replays its captured closures. -/
def execList : (Nat → Image) → List Cmd → (Nat → Image) × Option BufErr
  | H, [] => (H, none)
  | H, c :: cs =>
    match execCmd H c with
    | (H', none) => execList H' cs
    | (H', some e) => (H', some e)

/-- The checks a public call performs before it ever reaches the deferral
queue: `ReplacePixels` panics on a wrong-sized buffer (source line 212),
`DrawImage` on an aliased source (line 281), `DrawTriangles` on the receiver
appearing among its sources (lines 324–328); these fire pre-frame too. -/
def cmdPanicsBeforeDefer : Cmd → Bool
  | .replacePixels _ pix _ _ w h => decide ((pix.length : Int) ≠ 4 * w * h)
  | .drawImage dst src => decide (dst = src)
  | .drawTriangles dst src uniforms => decide (dst ∈ trianglesSrcs src uniforms)
  | _ => false

/-- Modelled from the spec: the process-wide state of the command-deferral
queue (`tryAddDelayedCommand` / `flushDelayedCommands` are not in the given
sources): the ordered captured commands plus the permanent flushed flag. -/
structure World where
  heap : Nat → Image
  delayed : List Cmd
  flushed : Bool

/-- Modelled from the spec: issuing one public mutating call.  The pre-defer
panics fire first; otherwise `tryAddDelayedCommand` captures the call (not
executing it) while the queue is active, and executes it immediately once the
first frame has begun. -/
def issue (w : World) (c : Cmd) : World :=
  if cmdPanicsBeforeDefer c then w
  else if w.flushed = false then { w with delayed := w.delayed ++ [c] }
  else { w with heap := (execCmd w.heap c).fst }

/-- Modelled from the spec: `BeginFrame` (source lines 40–45 call
`flushDelayedCommands`, which is outside the given sources): deferral is
permanently disabled and every captured command replays in insertion order,
stopping at (and returning) the first replay error. -/
def BeginFrame (w : World) : World × Option BufErr :=
  match execList w.heap w.delayed with
  | (H, e) => ({ heap := H, delayed := [], flushed := true }, e)

/-- The public single-image operations of the buffered layer, used to state
reachability of pending states (claim C4).  `resolve keep` is the pending
resolution that `DrawImage`/`DrawTriangles` apply to each involved image
(`keep = true` for sources, `keep = false` for the receiver). -/
inductive Op where
  | fill (c : RGBA)
  | replacePixels (pix : List Nat) (x y w h : Int)
  | pixels (x y w h : Int)
  | copyPixelsSelf (x y w h : Int)
  | resolve (keep : Bool)
  | markDisposed
deriving Repr

/-- State transition of one public operation on one image (result values and
errors dropped, the state threading kept). -/
def applyOp (i : Image) : Op → Image
  | .fill c => i.Fill c
  | .replacePixels pix x y w h => (i.ReplacePixels pix x y w h).2
  | .pixels x y w h => (i.Pixels x y w h).2
  | .copyPixelsSelf x y w h => (i.CopyPixelsSelf x y w h).2
  | .resolve keep => (i.resolvePendingPixels keep).2
  | .markDisposed => i.MarkDisposed

/-- Well-formedness of an image state, maintained by every operation: the
mipmap matches the image's size and holds a full-size byte buffer, a cached
pixel buffer is full-size, a set resolve flag implies a cached buffer, and
the two pending states are mutually exclusive. -/
def Image.wfb (i : Image) : Bool :=
  (i.img.width == i.width) && (i.img.height == i.height) &&
  (i.img.pix.length == 4 * (i.width * i.height)) &&
  (match i.pixels with
   | none => true
   | some p => p.length == 4 * (i.width * i.height)) &&
  (!(i.hasFill && i.needsToResolvePixels)) &&
  (!i.needsToResolvePixels || i.pixels.isSome) &&
  (!i.hasFill || !i.pixels.isSome)

/-- The byte of channel `ch` of the solid color `c` (channel order R,G,B,A). -/
def chanByte (c : RGBA) (ch : Nat) : Nat := [c.r, c.g, c.b, c.a].getD ch 0

/-- Nat-level view of the `Pixels` row-copy fold, for region arguments that
come from non-negative Go ints. -/
def pixFoldN (cache : List Nat) (W x y w k : Nat) (init : List Nat) : Option (List Nat) :=
  (List.range k).foldlM (fun acc j =>
    if cache.length < 4 * ((j + y) * W + x) then none
    else some (listCopy acc (4 * (j * w))
      ((cache.drop (4 * ((j + y) * W + x))).take (4 * w)))) init

/-- Nat-level view of the `replacePendingPixels` row-copy fold. -/
def repFoldN (W x y w : Nat) (pix : List Nat) (k : Nat) (init : List Nat) : Option (List Nat) :=
  (List.range k).foldlM (fun acc j =>
    if acc.length < 4 * ((j + y) * W + x) then none
    else some (listCopy acc (4 * ((j + y) * W + x))
      ((pix.drop (4 * (j * w))).take (4 * w)))) init

/-- Membership of byte index `b` (with respect to row stride `W`) in the
pixel rectangle at `(x, y)` of size `w × h`. -/
def inRegion (W x y w h : Nat) (b : Nat) : Prop :=
  y ≤ b / (4 * W) ∧ b / (4 * W) < y + h ∧
    x ≤ b % (4 * W) / 4 ∧ b % (4 * W) / 4 < x + w

instance (W x y w h b : Nat) : Decidable (inRegion W x y w h b) := by
  rw [inRegion]; infer_instance

/-- The index inside a `w`-wide sub-rectangle buffer corresponding to byte
index `b` of the full image. -/
def regionIdx (W x y w : Nat) (b : Nat) : Nat :=
  4 * ((b / (4 * W) - y) * w + (b % (4 * W) / 4 - x)) + b % 4

/-- One partial `ReplacePixels` request: a buffer and its target
sub-rectangle. -/
structure PWrite where
  buf : List Nat
  x : Nat
  y : Nat
  w : Nat
  h : Nat
deriving DecidableEq, Repr

/-- Disjointness of the rectangles of two partial writes. -/
def PWrite.disjoint (u v : PWrite) : Prop :=
  u.x + u.w ≤ v.x ∨ v.x + v.w ≤ u.x ∨ u.y + u.h ≤ v.y ∨ v.y + v.h ≤ u.y

instance (u v : PWrite) : Decidable (u.disjoint v) := by
  rw [PWrite.disjoint]
  infer_instance

/-- Apply a list of partial `ReplacePixels` calls in order. -/
def applyWrites (i : Image) (ws : List PWrite) : Image :=
  ws.foldl (fun i u =>
    (i.ReplacePixels u.buf (u.x : Int) (u.y : Int) (u.w : Int) (u.h : Int)).2) i

def c8img : Image := ((mkImage 2 2).ReplacePixels (List.range 16) 0 0 2 2).2

def c8row : PWrite := ⟨[100, 101, 102, 103, 104, 105, 106, 107], 0, 0, 2, 1⟩

/-! ### Helper lemmas: byte buffers and copy loops -/

theorem fillBytes_length (c : RGBA) (n : Nat) : (fillBytes c n).length = 4 * n := by
  induction n with
  | zero => rfl
  | succ n ih =>
    rw [fillBytes, List.replicate_succ, List.flatten_cons, List.length_append]
    rw [fillBytes] at ih
    rw [ih]
    simp
    omega

theorem fillBytes_getElem? (c : RGBA) (n : Nat) (b : Nat) (hb : b < 4 * n) :
    (fillBytes c n)[b]? = some (chanByte c (b % 4)) := by
  induction n generalizing b with
  | zero => omega
  | succ n ih =>
    rw [fillBytes, List.replicate_succ, List.flatten_cons]
    rw [List.getElem?_append]
    rcases Nat.lt_or_ge b 4 with h4 | h4
    · rw [if_pos (by simp; omega)]
      interval_cases b <;> rfl
    · rw [if_neg (by simp; omega)]
      have hlen : ([c.r, c.g, c.b, c.a] : List Nat).length = 4 := by simp
      rw [hlen]
      have := ih (b - 4) (by omega)
      rw [fillBytes] at this
      rw [this, show (b - 4) % 4 = b % 4 from by omega]

theorem listCopy_length (dst src : List Nat) (off : Nat) :
    (listCopy dst off src).length = dst.length := by
  simp [listCopy]
  omega

theorem listCopy_getElem? (dst src : List Nat) (off : Nat)
    (h : off + src.length ≤ dst.length) (k : Nat) :
    (listCopy dst off src)[k]? =
      if off ≤ k ∧ k < off + src.length then src[k - off]? else dst[k]? := by
  have hofflen : (dst.take off).length = off := by
    rw [List.length_take]; omega
  have hsrc : src.take (dst.length - off) = src :=
    List.take_of_length_le (by omega)
  rw [listCopy, hsrc, List.append_assoc, List.getElem?_append, hofflen]
  rcases Nat.lt_or_ge k off with hk | hk
  · rw [if_pos hk, List.getElem?_take, if_pos hk, if_neg (by omega)]
  · rw [if_neg (by omega), List.getElem?_append]
    rcases Nat.lt_or_ge (k - off) src.length with hk2 | hk2
    · rw [if_pos hk2, if_pos (by omega)]
    · rw [if_neg (by omega), if_neg (by omega), List.getElem?_drop]
      congr 1
      omega

/-- Byte-index decomposition: any byte index splits into row, column and
channel with respect to a row stride of `W` pixels. -/
theorem byte_decomp (W b : Nat) (hW : 0 < W) :
    b = 4 * W * (b / (4 * W)) + 4 * (b % (4 * W) / 4) + b % 4 ∧
      b % (4 * W) / 4 < W := by
  constructor
  · have h1 : b = 4 * W * (b / (4 * W)) + b % (4 * W) := (Nat.div_add_mod b (4 * W)).symm
    have h2 : b % (4 * W) = 4 * (b % (4 * W) / 4) + b % (4 * W) % 4 :=
      (Nat.div_add_mod (b % (4 * W)) 4).symm
    have h3 : b % (4 * W) % 4 = b % 4 := Nat.mod_mod_of_dvd b ⟨W, rfl⟩
    omega
  · have : b % (4 * W) < 4 * W := Nat.mod_lt b (by omega)
    omega

/-- Byte-index composition: a byte at row `r`, column `c < W`, channel
`ch < 4` has linear index `4*(r*W+c)+ch`, and that index decomposes back. -/
theorem byte_comp (W r c ch : Nat) (hc : c < W) (hch : ch < 4) :
    (4 * (r * W + c) + ch) / (4 * W) = r ∧
      (4 * (r * W + c) + ch) % (4 * W) = 4 * c + ch ∧
      (4 * (r * W + c) + ch) % 4 = ch := by
  have hW : 0 < W := by omega
  have key : 4 * (r * W + c) + ch = 4 * W * r + (4 * c + ch) := by ring
  have hlt : 4 * c + ch < 4 * W := by omega
  refine ⟨?_, ?_, ?_⟩
  · rw [key, Nat.mul_add_div (by omega), Nat.div_eq_of_lt hlt, Nat.add_zero]
  · rw [key, Nat.mul_add_mod, Nat.mod_eq_of_lt hlt]
  · rw [key, show 4 * W * r = 4 * (W * r) from by ring, Nat.mul_add_mod,
      Nat.mul_add_mod, Nat.mod_eq_of_lt hch]

theorem pixCopyRow_coe (cache : List Nat) (W x y w : Nat) (acc : List Nat) (j : Nat) :
    pixCopyRow cache W (x : Int) (y : Int) (w : Int) acc j =
      (if cache.length < 4 * ((j + y) * W + x) then none
       else some (listCopy acc (4 * (j * w))
         ((cache.drop (4 * ((j + y) * W + x))).take (4 * w)))) := by
  rw [pixCopyRow]
  have h1 : (4 : Int) * (((j : Int) + (y : Int)) * (W : Int) + (x : Int)) =
      ((4 * ((j + y) * W + x) : Nat) : Int) := by push_cast; ring
  have h2 : ¬((4 : Int) * (((j : Int) + (y : Int)) * (W : Int) + (x : Int)) < 0) := by
    rw [h1]; exact not_lt.mpr (Int.natCast_nonneg _)
  rcases Nat.lt_or_ge cache.length (4 * ((j + y) * W + x)) with hlt | hge
  · rw [if_pos, if_pos hlt]
    rw [h1]
    right
    exact_mod_cast hlt
  · rw [if_neg, if_neg (by omega)]
    · rw [show ((4 : Int) * (j : Int) * (w : Int)).toNat = 4 * (j * w) from by
          rw [show (4 : Int) * (j : Int) * (w : Int) = ((4 * (j * w) : Nat) : Int) from by
            push_cast; ring, Int.toNat_natCast],
        h1, Int.toNat_natCast,
        show ((4 : Int) * (w : Int)).toNat = 4 * w from by
          rw [show (4 : Int) * (w : Int) = ((4 * w : Nat) : Int) from by push_cast; ring,
            Int.toNat_natCast]]
    · rw [h1]
      push_neg
      refine ⟨Int.natCast_nonneg _, ?_⟩
      exact_mod_cast hge

theorem pixCopy_coe (cache : List Nat) (W x y w h : Nat) :
    pixCopy cache W (x : Int) (y : Int) (w : Int) (h : Int) =
      pixFoldN cache W x y w h (List.replicate (4 * (w * h)) 0) := by
  rw [pixCopy, pixFoldN]
  have h1 : ((h : Int)).toNat = h := Int.toNat_natCast h
  have h2 : ((4 : Int) * (w : Int) * (h : Int)).toNat = 4 * (w * h) := by
    rw [show (4 : Int) * (w : Int) * (h : Int) = ((4 * (w * h) : Nat) : Int) from by
      push_cast; ring, Int.toNat_natCast]
  rw [h1, h2]
  congr 1
  funext acc j
  exact pixCopyRow_coe cache W x y w acc j

theorem replaceRow_coe (W x y w : Nat) (pix acc : List Nat) (j : Nat) :
    replaceRow W (x : Int) (y : Int) (w : Int) pix acc j =
      (if acc.length < 4 * ((j + y) * W + x) then none
       else some (listCopy acc (4 * ((j + y) * W + x))
         ((pix.drop (4 * (j * w))).take (4 * w)))) := by
  rw [replaceRow]
  have h1 : (4 : Int) * (((j : Int) + (y : Int)) * (W : Int) + (x : Int)) =
      ((4 * ((j + y) * W + x) : Nat) : Int) := by push_cast; ring
  rcases Nat.lt_or_ge acc.length (4 * ((j + y) * W + x)) with hlt | hge
  · rw [if_pos, if_pos hlt]
    rw [h1]
    right
    exact_mod_cast hlt
  · rw [if_neg, if_neg (by omega)]
    · rw [h1, Int.toNat_natCast,
        show ((4 : Int) * (j : Int) * (w : Int)).toNat = 4 * (j * w) from by
          rw [show (4 : Int) * (j : Int) * (w : Int) = ((4 * (j * w) : Nat) : Int) from by
            push_cast; ring, Int.toNat_natCast],
        show ((4 : Int) * (w : Int)).toNat = 4 * w from by
          rw [show (4 : Int) * (w : Int) = ((4 * w : Nat) : Int) from by push_cast; ring,
            Int.toNat_natCast]]
    · rw [h1]
      push_neg
      refine ⟨Int.natCast_nonneg _, ?_⟩
      exact_mod_cast hge

theorem replacePendingPixels_coe (i : Image) (pix : List Nat) (x y w h : Nat) :
    i.replacePendingPixels pix (x : Int) (y : Int) (w : Int) (h : Int) =
      (match repFoldN i.width x y w pix h (i.pixels.getD []) with
       | none => none
       | some newPixels =>
         some { i with pixels := some newPixels, needsToResolvePixels := true }) := by
  rw [Image.replacePendingPixels, repFoldN, Int.toNat_natCast]
  congr 1
  congr 1
  funext acc j
  exact replaceRow_coe i.width x y w pix acc j

theorem pixFoldN_zero (cache : List Nat) (W x y w : Nat) (init : List Nat) :
    pixFoldN cache W x y w 0 init = some init := rfl

theorem repFoldN_zero (W x y w : Nat) (pix : List Nat) (init : List Nat) :
    repFoldN W x y w pix 0 init = some init := rfl

theorem foldlM_range_succ (k : Nat) (f : List Nat → Nat → Option (List Nat))
    (init : List Nat) :
    (List.range (k + 1)).foldlM f init =
      ((List.range k).foldlM f init).bind (fun acc => f acc k) := by
  rw [List.range_succ, List.foldlM_append]
  cases (List.range k).foldlM f init with
  | none => rfl
  | some acc =>
    show List.foldlM f acc [k] = (f acc k)
    rw [List.foldlM_cons]
    cases f acc k with
    | none => rfl
    | some r => rfl

theorem pixFoldN_succ (cache : List Nat) (W x y w k : Nat) (init : List Nat) :
    pixFoldN cache W x y w (k + 1) init =
      (pixFoldN cache W x y w k init).bind (fun acc =>
        if cache.length < 4 * ((k + y) * W + x) then none
        else some (listCopy acc (4 * (k * w))
          ((cache.drop (4 * ((k + y) * W + x))).take (4 * w)))) := by
  rw [pixFoldN, pixFoldN, foldlM_range_succ]

theorem repFoldN_succ (W x y w k : Nat) (pix : List Nat) (init : List Nat) :
    repFoldN W x y w pix (k + 1) init =
      (repFoldN W x y w pix k init).bind (fun acc =>
        if acc.length < 4 * ((k + y) * W + x) then none
        else some (listCopy acc (4 * ((k + y) * W + x))
          ((pix.drop (4 * (k * w))).take (4 * w)))) := by
  rw [repFoldN, repFoldN, foldlM_range_succ]

/-- Pointwise characterization of the `replacePendingPixels` row-copy loop:
after writing `k` rows of the sub-rectangle, a byte inside the written region
comes from the sub-rectangle buffer and every other byte is unchanged. -/
theorem repFoldN_char (W H x y w : Nat) (pix : List Nat) (k : Nat) (init : List Nat)
    (hxw : x + w ≤ W) (hyk : y + k ≤ H)
    (hinit : init.length = 4 * (W * H))
    (hpix : 4 * (w * k) ≤ pix.length) :
    ∃ out, repFoldN W x y w pix k init = some out ∧
      out.length = init.length ∧
      ∀ b, out[b]? =
        if inRegion W x y w k b then pix[regionIdx W x y w b]? else init[b]? := by
  induction k with
  | zero =>
    refine ⟨init, repFoldN_zero .., rfl, fun b => ?_⟩
    rw [if_neg]
    rw [inRegion]
    omega
  | succ k ih =>
    obtain ⟨out, hout, hlen, hchar⟩ := ih (by omega) (by
      have : 4 * (w * k) ≤ 4 * (w * (k + 1)) := by
        have : w * k ≤ w * (k + 1) := Nat.mul_le_mul_left w (by omega)
        omega
      omega)
    have hWH : (k + y) * W + (x + w) ≤ W * H := by
      calc (k + y) * W + (x + w) ≤ (k + y) * W + W := by omega
        _ = (k + y + 1) * W := by ring
        _ ≤ H * W := Nat.mul_le_mul_right W (by omega)
        _ = W * H := Nat.mul_comm H W
    have hoff : 4 * ((k + y) * W + x) + 4 * w ≤ 4 * (W * H) := by omega
    have hsrclen : ((pix.drop (4 * (k * w))).take (4 * w)).length = 4 * w := by
      rw [List.length_take, List.length_drop]
      have : w * (k + 1) = k * w + w := by ring
      omega
    refine ⟨listCopy out (4 * ((k + y) * W + x)) ((pix.drop (4 * (k * w))).take (4 * w)),
      ?_, ?_, ?_⟩
    · rw [repFoldN_succ, hout, Option.some_bind, if_neg (by omega)]
    · rw [listCopy_length, hlen]
    · intro b
      rw [listCopy_getElem? _ _ _ (by rw [hsrclen]; omega), hsrclen]
      by_cases hb : 4 * ((k + y) * W + x) ≤ b ∧ b < 4 * ((k + y) * W + x) + 4 * w
      · have hdlt : b - 4 * ((k + y) * W + x) < 4 * w := by omega
        have hkey : b = 4 * ((k + y) * W + (x + (b - 4 * ((k + y) * W + x)) / 4)) +
            (b - 4 * ((k + y) * W + x)) % 4 := by omega
        have hclt : x + (b - 4 * ((k + y) * W + x)) / 4 < W := by omega
        obtain ⟨hdiv, hmod4W, hmod4⟩ := byte_comp W (k + y)
          (x + (b - 4 * ((k + y) * W + x)) / 4) ((b - 4 * ((k + y) * W + x)) % 4)
          hclt (by omega)
        rw [← hkey] at hdiv hmod4W hmod4
        have hcol : b % (4 * W) / 4 = x + (b - 4 * ((k + y) * W + x)) / 4 := by omega
        have hreg : inRegion W x y w (k + 1) b := by
          rw [inRegion, hdiv, hcol]
          omega
        rw [if_pos hb, if_pos hreg, List.getElem?_take, if_pos hdlt, List.getElem?_drop]
        congr 1
        rw [regionIdx, hdiv, hcol, hmod4]
        rw [show k + y - y = k from by omega, Nat.add_sub_cancel_left]
        omega
      · rw [if_neg hb, hchar b]
        refine if_congr ?_ rfl rfl
        rw [inRegion, inRegion]
        by_cases hW0 : 0 < W
        · obtain ⟨hdec, hclt⟩ := byte_decomp W b hW0
          have hch4 : b % 4 < 4 := Nat.mod_lt b (by omega)
          constructor
          · rintro ⟨h1, h2, h3, h4⟩
            exact ⟨h1, by omega, h3, h4⟩
          · rintro ⟨h1, h2, h3, h4⟩
            refine ⟨h1, ?_, h3, h4⟩
            by_contra hcon
            push_neg at hcon
            have hr : b / (4 * W) = y + k := by omega
            rw [hr] at hdec
            have e1 : 4 * W * (y + k) = 4 * ((k + y) * W) := by ring
            omega
        · have hw0 : w = 0 := by omega
          constructor <;> (rintro ⟨h1, h2, h3, h4⟩; omega)

/-- Pointwise characterization of the `Pixels` row-copy loop: after copying
`k` rows, byte `d` of the output buffer (laid out `w` pixels per row) is the
corresponding byte of the cached full image, and bytes beyond the copied
prefix keep the `make`-zero initialization. -/
theorem pixFoldN_char (cache : List Nat) (W H x y w : Nat) (k : Nat) (init : List Nat)
    (hxw : x + w ≤ W) (hyk : y + k ≤ H)
    (hcache : cache.length = 4 * (W * H))
    (hinit : 4 * (w * k) ≤ init.length) :
    ∃ out, pixFoldN cache W x y w k init = some out ∧
      out.length = init.length ∧
      ∀ d, out[d]? =
        if d < 4 * (w * k) then
          cache[4 * ((d / (4 * w) + y) * W + (x + d % (4 * w) / 4)) + d % 4]?
        else init[d]? := by
  induction k with
  | zero =>
    refine ⟨init, pixFoldN_zero .., rfl, fun d => ?_⟩
    rw [if_neg (by omega)]
  | succ k ih =>
    have hmulsucc : w * (k + 1) = w * k + w := by ring
    obtain ⟨out, hout, hlen, hchar⟩ := ih (by omega) (by omega)
    have hWH : (k + y) * W + (x + w) ≤ W * H := by
      calc (k + y) * W + (x + w) ≤ (k + y) * W + W := by omega
        _ = (k + y + 1) * W := by ring
        _ ≤ H * W := Nat.mul_le_mul_right W (by omega)
        _ = W * H := Nat.mul_comm H W
    have hoff : 4 * ((k + y) * W + x) + 4 * w ≤ 4 * (W * H) := by omega
    have hkw : k * w = w * k := Nat.mul_comm k w
    have hsrclen : ((cache.drop (4 * ((k + y) * W + x))).take (4 * w)).length = 4 * w := by
      rw [List.length_take, List.length_drop]
      omega
    refine ⟨listCopy out (4 * (k * w)) ((cache.drop (4 * ((k + y) * W + x))).take (4 * w)),
      ?_, ?_, ?_⟩
    · rw [pixFoldN_succ, hout, Option.some_bind, if_neg (by omega)]
    · rw [listCopy_length, hlen]
    · intro d
      rw [listCopy_getElem? _ _ _ (by rw [hsrclen]; omega), hsrclen]
      by_cases hd : 4 * (k * w) ≤ d ∧ d < 4 * (k * w) + 4 * w
      · have helt : d - 4 * (k * w) < 4 * w := by omega
        have hkey : d = 4 * (k * w + (d - 4 * (k * w)) / 4) + (d - 4 * (k * w)) % 4 := by
          omega
        have hclt : (d - 4 * (k * w)) / 4 < w := by omega
        obtain ⟨hdiv, hmod4w, hmod4⟩ := byte_comp w k ((d - 4 * (k * w)) / 4)
          ((d - 4 * (k * w)) % 4) hclt (by omega)
        rw [← hkey] at hdiv hmod4w hmod4
        have hcol : d % (4 * w) / 4 = (d - 4 * (k * w)) / 4 := by omega
        rw [if_pos hd, if_pos (by omega), List.getElem?_take, if_pos helt,
          List.getElem?_drop]
        congr 1
        rw [hdiv, hcol, hmod4]
        omega
      · rw [if_neg hd, hchar d]
        refine if_congr ?_ rfl rfl
        omega

theorem goRectIn_iff (x0 y0 x1 y1 W H : Int) :
    goRectIn x0 y0 x1 y1 W H = true ↔
      ((max x0 x1 ≤ min x0 x1 ∨ max y0 y1 ≤ min y0 y1) ∨
        (0 ≤ min x0 x1 ∧ max x0 x1 ≤ W ∧ 0 ≤ min y0 y1 ∧ max y0 y1 ≤ H)) := by
  rw [goRectIn]
  exact decide_eq_true_iff

theorem goRectIn_inbounds (x y w h W H : Nat) (h1 : x + w ≤ W) (h2 : y + h ≤ H) :
    goRectIn (x : Int) (y : Int) ((x : Int) + (w : Int)) ((y : Int) + (h : Int))
      (W : Int) (H : Int) = true := by
  rw [goRectIn_iff]
  have c1 : ((x : Int)) + (w : Int) ≤ (W : Int) := by exact_mod_cast h1
  have c2 : ((y : Int)) + (h : Int) ≤ (H : Int) := by exact_mod_cast h2
  have n1 : (0 : Int) ≤ (x : Int) := Int.natCast_nonneg x
  have n2 : (0 : Int) ≤ (y : Int) := Int.natCast_nonneg y
  have n3 : (0 : Int) ≤ (w : Int) := Int.natCast_nonneg w
  have n4 : (0 : Int) ≤ (h : Int) := Int.natCast_nonneg h
  omega

theorem goRectIn_oob (x y w h : Int) (W H : Nat) (hw : 0 < w) (hh : 0 < h)
    (hout : x < 0 ∨ y < 0 ∨ (W : Int) < x + w ∨ (H : Int) < y + h) :
    goRectIn x y (x + w) (y + h) (W : Int) (H : Int) = false := by
  rw [goRectIn]
  exact decide_eq_false (by omega)

theorem pixCopy_full (cache : List Nat) (W H : Nat)
    (hc : cache.length = 4 * (W * H)) :
    pixFoldN cache W 0 0 W H (List.replicate (4 * (W * H)) 0) = some cache := by
  obtain ⟨out, hout, hlen, hchar⟩ := pixFoldN_char cache W H 0 0 W H
    (List.replicate (4 * (W * H)) 0) (by omega) (by omega) hc
    (by rw [List.length_replicate])
  rw [hout]
  congr 1
  refine List.ext_getElem? fun d => ?_
  rw [hchar d]
  by_cases hd : d < 4 * (W * H)
  · rw [if_pos hd]
    congr 1
    have hW : 0 < W := by
      rcases Nat.eq_zero_or_pos W with h | h
      · subst h; simp at hd
      · exact h
    obtain ⟨hdec, hclt⟩ := byte_decomp W d hW
    simp only [Nat.add_zero, Nat.zero_add]
    have e1 : 4 * W * (d / (4 * W)) = 4 * ((d / (4 * W)) * W) := by ring
    omega
  · rw [if_neg hd]
    have h1 : (List.replicate (4 * (W * H)) 0 : List Nat)[d]? = none := by
      rw [List.getElem?_eq_none]
      rw [List.length_replicate]
      omega
    have h2 : cache[d]? = none := by
      rw [List.getElem?_eq_none]
      omega
    rw [h1, h2]

theorem wfb_iff (i : Image) :
    i.wfb = true ↔
      (i.img.width = i.width ∧ i.img.height = i.height ∧
        i.img.pix.length = 4 * (i.width * i.height) ∧
        (∀ p, i.pixels = some p → p.length = 4 * (i.width * i.height)) ∧
        (i.hasFill = false ∨ i.needsToResolvePixels = false) ∧
        (i.needsToResolvePixels = true → i.pixels.isSome = true) ∧
        (i.hasFill = true → i.pixels = none)) := by
  rw [Image.wfb]
  simp only [Bool.and_eq_true, beq_iff_eq, Bool.not_eq_true', Bool.or_eq_true,
    Bool.and_eq_false_iff, Bool.not_eq_eq_eq_not, Bool.not_true]
  constructor
  · rintro ⟨⟨⟨⟨⟨⟨h1, h2⟩, h3⟩, h4⟩, h5⟩, h6⟩, h7⟩
    refine ⟨h1, h2, h3, ?_, ?_, ?_, ?_⟩
    · intro p hp
      rw [hp] at h4
      exact beq_iff_eq.mp h4
    · rcases h5 with h | h
      · exact Or.inl h
      · exact Or.inr h
    · intro hn
      rcases h6 with h | h
      · rw [hn] at h; exact absurd h (by simp)
      · exact h
    · intro hfill
      rcases h7 with h | h
      · rw [hfill] at h; exact absurd h (by simp)
      · cases hp : i.pixels with
        | none => rfl
        | some p => rw [hp] at h; exact absurd h (by simp)
  · rintro ⟨h1, h2, h3, h4, h5, h6, h7⟩
    refine ⟨⟨⟨⟨⟨⟨h1, h2⟩, h3⟩, ?_⟩, ?_⟩, ?_⟩, ?_⟩
    · cases hp : i.pixels with
      | none => rfl
      | some p => exact beq_iff_eq.mpr (h4 p hp)
    · rcases h5 with h | h
      · exact Or.inl h
      · exact Or.inr h
    · cases hn : i.needsToResolvePixels with
      | false => exact Or.inl rfl
      | true => exact Or.inr (h6 hn)
    · cases hf : i.hasFill with
      | false => exact Or.inl rfl
      | true => exact Or.inr (by rw [h7 hf]; rfl)

theorem wfb_spec (i : Image) (h : i.wfb = true) :
    i.img.width = i.width ∧ i.img.height = i.height ∧
      i.img.pix.length = 4 * (i.width * i.height) ∧
      (∀ p, i.pixels = some p → p.length = 4 * (i.width * i.height)) ∧
      (i.hasFill = false ∨ i.needsToResolvePixels = false) ∧
      (i.needsToResolvePixels = true → i.pixels.isSome = true) := by
  obtain ⟨h1, h2, h3, h4, h5, h6, h7⟩ := (wfb_iff i).mp h
  exact ⟨h1, h2, h3, h4, h5, h6⟩

theorem Mipmap_Pixels_ok (m : Mipmap) (h : m.readErr = none) :
    m.Pixels = (.ok m.pix, { m with trace := m.trace ++ [.readPixels] }) := by
  rw [Mipmap.Pixels, h]

theorem pixCopy_cast0 (cache : List Nat) (W w h : Nat) :
    pixCopy cache W 0 0 (w : Int) (h : Int) =
      pixFoldN cache W 0 0 w h (List.replicate (4 * (w * h)) 0) := by
  have hc := pixCopy_coe cache W 0 0 w h
  simpa using hc

/-- A full-region `Pixels` read on an image with a cached pixel buffer and no
pending fill returns the cache itself and leaves the image (and its mipmap)
unchanged. -/
theorem Pixels_full_cached (i : Image) (cache : List Nat)
    (hf : i.hasFill = false) (hp : i.pixels = some cache)
    (hlen : cache.length = 4 * (i.width * i.height)) :
    i.Pixels 0 0 (i.width : Int) (i.height : Int) = (.ok cache, i) := by
  have hrect : goRectIn 0 0 (i.width : Int) (i.height : Int)
      (i.width : Int) (i.height : Int) = true := by
    have h := goRectIn_inbounds 0 0 i.width i.height i.width i.height
      (by omega) (by omega)
    simpa using h
  rw [Image.Pixels, hf, hp]
  rw [if_neg (by simp [hrect]), if_neg (not_lt.mpr (by positivity)), if_neg (by simp)]
  have hcp : pixCopy cache i.width 0 0 (i.width : Int) (i.height : Int) = some cache := by
    rw [pixCopy_cast0]
    exact pixCopy_full cache i.width i.height hlen
  simp only [hcp]

/-- A full-region `Pixels` read on an image with a pending fill synthesizes
the result from the fill color and leaves the image unchanged. -/
theorem Pixels_full_fill (i : Image) (hf : i.hasFill = true) :
    i.Pixels 0 0 (i.width : Int) (i.height : Int) =
      (.ok (fillBytes i.fillColor (i.width * i.height)), i) := by
  have hrect : goRectIn 0 0 (i.width : Int) (i.height : Int)
      (i.width : Int) (i.height : Int) = true := by
    have h := goRectIn_inbounds 0 0 i.width i.height i.width i.height
      (by omega) (by omega)
    simpa using h
  rw [Image.Pixels, hf]
  rw [if_neg (by simp [hrect]), if_neg (not_lt.mpr (by positivity)), if_pos rfl]
  have : ((i.width : Int) * (i.height : Int)).toNat = i.width * i.height := by
    rw [show (i.width : Int) * (i.height : Int) = ((i.width * i.height : Nat) : Int) from by
      push_cast; ring, Int.toNat_natCast]
  rw [this]

theorem pixCopy_ok (cache : List Nat) (W H x y w h : Nat)
    (hc : cache.length = 4 * (W * H)) (hx : x + w ≤ W) (hy : y + h ≤ H) :
    ∃ out, pixCopy cache W (x : Int) (y : Int) (w : Int) (h : Int) = some out := by
  rw [pixCopy_coe]
  obtain ⟨out, hout, _, _⟩ := pixFoldN_char cache W H x y w h
    (List.replicate (4 * (w * h)) 0) hx hy hc (by rw [List.length_replicate])
  exact ⟨out, hout⟩

/-- An in-bounds `Pixels` request on a well-formed image whose resource read
does not fail always succeeds. -/
theorem Pixels_inbounds_ok (i : Image) (x y w h : Nat)
    (hwf : i.wfb = true) (herr : i.img.readErr = none)
    (hx : x + w ≤ i.width) (hy : y + h ≤ i.height) :
    ∃ out, (i.Pixels (x : Int) (y : Int) (w : Int) (h : Int)).1 = .ok out := by
  obtain ⟨hw1, hw2, hw3, hw4, hw5, hw6⟩ := wfb_spec i hwf
  rw [Image.Pixels]
  have hrect := goRectIn_inbounds x y w h i.width i.height hx hy
  rw [if_neg (by simp [hrect]), if_neg (not_lt.mpr (by positivity))]
  by_cases hf : i.hasFill = true
  · rw [if_pos hf]
    exact ⟨_, rfl⟩
  · rw [if_neg hf]
    cases hp : i.pixels with
    | none =>
      rw [Mipmap_Pixels_ok i.img herr]
      obtain ⟨out, hout⟩ := pixCopy_ok i.img.pix i.width i.height x y w h hw3 hx hy
      simp only [hout]
      exact ⟨out, rfl⟩
    | some cache =>
      obtain ⟨out, hout⟩ := pixCopy_ok cache i.width i.height x y w h
        (hw4 cache hp) hx hy
      simp only [hout]
      exact ⟨out, rfl⟩

theorem resolvePendingFill_noFill (i : Image) (hf : i.hasFill = false) :
    i.resolvePendingFill = i := by
  rw [Image.resolvePendingFill, hf]
  simp

theorem ReplacePixels_full (i : Image) (buf : List Nat)
    (hlen : buf.length = 4 * (i.width * i.height)) :
    i.ReplacePixels buf 0 0 (i.width : Int) (i.height : Int) =
      (.ok (), { i with
        hasFill := false,
        pixels := some buf,
        needsToResolvePixels := true }) := by
  rw [Image.ReplacePixels]
  rw [if_neg (by push_neg; rw [hlen]; push_cast; ring)]
  rw [if_pos ⟨rfl, rfl, rfl, rfl⟩]
  rfl

theorem castRegion_ne_full (i : Image) (x y w h : Nat)
    (hpart : ¬(x = 0 ∧ y = 0 ∧ w = i.width ∧ h = i.height)) :
    ¬((x : Int) = 0 ∧ (y : Int) = 0 ∧ (w : Int) = (i.width : Int) ∧
      (h : Int) = (i.height : Int)) := by
  intro ⟨h1, h2, h3, h4⟩
  exact hpart ⟨by exact_mod_cast h1, by exact_mod_cast h2,
    by exact_mod_cast h3, by exact_mod_cast h4⟩

/-- A strictly partial in-bounds `ReplacePixels` on an image with a cached
pixel buffer and no pending fill succeeds without touching the resource and
splices the sub-rectangle into the cache. -/
theorem ReplacePixels_partial_cached (i : Image) (cache buf : List Nat) (x y w h : Nat)
    (hf : i.hasFill = false) (hp : i.pixels = some cache)
    (hc : cache.length = 4 * (i.width * i.height))
    (hb : buf.length = 4 * (w * h))
    (hx : x + w ≤ i.width) (hy : y + h ≤ i.height)
    (hpart : ¬(x = 0 ∧ y = 0 ∧ w = i.width ∧ h = i.height)) :
    ∃ cache', i.ReplacePixels buf (x : Int) (y : Int) (w : Int) (h : Int) =
        (.ok (), { i with pixels := some cache', needsToResolvePixels := true }) ∧
      cache'.length = cache.length ∧
      ∀ b, cache'[b]? =
        if inRegion i.width x y w h b then buf[regionIdx i.width x y w b]?
        else cache[b]? := by
  obtain ⟨out, hout, hlen, hchar⟩ := repFoldN_char i.width i.height x y w buf h
    cache hx hy hc (by omega)
  have hrepl : i.replacePendingPixels buf (x : Int) (y : Int) (w : Int) (h : Int) =
      some { i with pixels := some out, needsToResolvePixels := true } := by
    rw [replacePendingPixels_coe, hp]
    simp only [Option.getD_some]
    rw [hout]
  refine ⟨out, ?_, by rw [hlen, hc], hchar⟩
  rw [Image.ReplacePixels]
  rw [if_neg (by push_neg; rw [hb]; push_cast; ring)]
  rw [if_neg (castRegion_ne_full i x y w h hpart)]
  rw [resolvePendingFill_noFill i hf]
  simp only []
  rw [hp, hrepl]

theorem Mipmap_Pixels_err (m : Mipmap) (e : Nat) (h : m.readErr = some e) :
    m.Pixels = (.error e, { m with trace := m.trace ++ [.readPixels] }) := by
  rw [Mipmap.Pixels, h]

/-- An in-bounds `Pixels` request that has to read the resource back
propagates a resource failure unchanged and leaves every pending-state field
as it was. -/
theorem Pixels_err (i : Image) (x y w h : Nat) (e : Nat)
    (hf : i.hasFill = false) (hpnone : i.pixels = none) (herr : i.img.readErr = some e)
    (hx : x + w ≤ i.width) (hy : y + h ≤ i.height) :
    i.Pixels (x : Int) (y : Int) (w : Int) (h : Int) =
      (.error (.resource e),
        { i with img := { i.img with trace := i.img.trace ++ [.readPixels] } }) := by
  rw [Image.Pixels]
  have hrect := goRectIn_inbounds x y w h i.width i.height hx hy
  rw [if_neg (by simp [hrect]), if_neg (not_lt.mpr (by positivity)),
    if_neg (by rw [hf]; simp), hpnone, Mipmap_Pixels_err i.img e herr]

/-- When a pending fill is present and the size and partial-region checks
pass, `ReplacePixels` behaves exactly as on the image whose fill has already
been resolved to the resource. -/
theorem ReplacePixels_resolveFill_comm (i : Image) (buf : List Nat) (x y w h : Int)
    (hf : i.hasFill = true)
    (hsz : (buf.length : Int) = 4 * w * h)
    (hpart : ¬(x = 0 ∧ y = 0 ∧ w = (i.width : Int) ∧ h = (i.height : Int))) :
    i.ReplacePixels buf x y w h =
      ({ i with img := i.img.Fill i.fillColor, hasFill := false }).ReplacePixels
        buf x y w h := by
  have hres : i.resolvePendingFill =
      { i with img := i.img.Fill i.fillColor, hasFill := false } := by
    rw [Image.resolvePendingFill, hf]
    exact if_pos rfl
  rw [Image.ReplacePixels, Image.ReplacePixels]
  rw [if_neg (by omega), if_neg hpart, if_neg (by omega), if_neg hpart]
  rw [hres, resolvePendingFill_noFill
    { i with img := i.img.Fill i.fillColor, hasFill := false } rfl]

/-- A strictly partial `ReplacePixels` on an image with no pending fill and no
cached buffer reads the whole image back from the resource (the one GPU
round-trip), then splices the sub-rectangle into that read-back copy. -/
theorem ReplacePixels_partial_nofill_nocache (i : Image) (buf : List Nat) (x y w h : Nat)
    (hf : i.hasFill = false) (hpnone : i.pixels = none) (herr : i.img.readErr = none)
    (hlen3 : i.img.pix.length = 4 * (i.width * i.height))
    (hb : buf.length = 4 * (w * h))
    (hx : x + w ≤ i.width) (hy : y + h ≤ i.height)
    (hpart : ¬(x = 0 ∧ y = 0 ∧ w = i.width ∧ h = i.height)) :
    ∃ cache', i.ReplacePixels buf (x : Int) (y : Int) (w : Int) (h : Int) =
        (.ok (), { i with
          img := { i.img with trace := i.img.trace ++ [.readPixels] },
          pixels := some cache',
          needsToResolvePixels := true }) ∧
      cache'.length = 4 * (i.width * i.height) ∧
      ∀ b, cache'[b]? =
        if inRegion i.width x y w h b then buf[regionIdx i.width x y w b]?
        else i.img.pix[b]? := by
  obtain ⟨out, hout, hlen, hchar⟩ := repFoldN_char i.width i.height x y w buf h
    i.img.pix hx hy hlen3 (by omega)
  have hrepl : ∀ i₂ : Image, i₂.width = i.width → i₂.pixels = some i.img.pix →
      i₂.replacePendingPixels buf (x : Int) (y : Int) (w : Int) (h : Int) =
        some { i₂ with pixels := some out, needsToResolvePixels := true } := by
    intro i₂ hw hp
    rw [replacePendingPixels_coe, hp]
    simp only [Option.getD_some]
    rw [hw, hout]
  refine ⟨out, ?_, by rw [hlen, hlen3], hchar⟩
  rw [Image.ReplacePixels]
  rw [if_neg (by push_neg; rw [hb]; push_cast; ring)]
  rw [if_neg (castRegion_ne_full i x y w h hpart)]
  rw [resolvePendingFill_noFill i hf]
  simp only []
  rw [hpnone, Mipmap_Pixels_ok i.img herr]
  simp only []
  rw [hrepl { i with
    img := { i.img with trace := i.img.trace ++ [GpuOp.readPixels] },
    pixels := some i.img.pix } rfl rfl]

/-- A strictly partial `ReplacePixels` on an image with no pending fill and no
cached buffer propagates a resource read failure unchanged, leaving the
pending-state fields as they were. -/
theorem ReplacePixels_partial_nofill_nocache_err (i : Image) (buf : List Nat)
    (x y w h : Nat) (e : Nat)
    (hf : i.hasFill = false) (hpnone : i.pixels = none) (herr : i.img.readErr = some e)
    (hb : buf.length = 4 * (w * h))
    (hpart : ¬(x = 0 ∧ y = 0 ∧ w = i.width ∧ h = i.height)) :
    i.ReplacePixels buf (x : Int) (y : Int) (w : Int) (h : Int) =
      (.error (.resource e),
        { i with img := { i.img with trace := i.img.trace ++ [.readPixels] } }) := by
  rw [Image.ReplacePixels]
  rw [if_neg (by push_neg; rw [hb]; push_cast; ring)]
  rw [if_neg (castRegion_ne_full i x y w h hpart)]
  rw [resolvePendingFill_noFill i hf]
  simp only []
  rw [hpnone, Mipmap_Pixels_err i.img e herr]

theorem Mipmap_Pixels_snd (m : Mipmap) :
    m.Pixels.2 = { m with trace := m.trace ++ [.readPixels] } := by
  rw [Mipmap.Pixels]
  cases m.readErr <;> rfl

theorem Mipmap_Pixels_fst_ok (m : Mipmap) (l : List Nat) (h : m.Pixels.1 = .ok l) :
    l = m.pix := by
  rw [Mipmap.Pixels] at h
  cases hm : m.readErr with
  | none =>
    rw [hm] at h
    exact (Except.ok.injEq .. ▸ h).symm
  | some e =>
    rw [hm] at h
    exact absurd h (by simp)

theorem wfb_Fill (i : Image) (c : RGBA) (h : i.wfb = true) : (i.Fill c).wfb = true := by
  rw [wfb_iff] at h ⊢
  obtain ⟨h1, h2, h3, h4, h5, h6, h7⟩ := h
  simp only [Image.Fill, Image.invalidatePendingPixels]
  exact ⟨h1, h2, h3, by simp, by simp, by simp, by simp⟩

theorem wfb_resolvePendingFill (i : Image) (h : i.wfb = true) :
    i.resolvePendingFill.wfb = true := by
  rw [Image.resolvePendingFill]
  by_cases hf : i.hasFill = true
  · rw [if_pos hf]
    rw [wfb_iff] at h ⊢
    obtain ⟨h1, h2, h3, h4, h5, h6, h7⟩ := h
    simp only [Mipmap.Fill]
    have hneeds : i.needsToResolvePixels = false := by
      rcases h5 with h5 | h5
      · rw [hf] at h5; exact absurd h5 (by simp)
      · exact h5
    refine ⟨h1, h2, ?_, ?_, by simp, by simp [hneeds], by simp⟩
    · rw [fillBytes_length, h1, h2]
    · intro p hp
      rw [h7 hf] at hp
      exact Option.noConfusion hp
  · rw [if_neg hf]
    exact h

theorem wfb_resolvePendingPixels (i : Image) (keep : Bool) (h : i.wfb = true) :
    ((i.resolvePendingPixels keep).2).wfb = true := by
  rw [Image.resolvePendingPixels]
  by_cases h1 : (i.needsToResolvePixels && i.hasFill) = true
  · rw [if_pos h1]
    exact h
  · rw [if_neg h1]
    by_cases h2 : i.needsToResolvePixels = true
    · rw [if_pos h2]
      simp only []
      apply wfb_resolvePendingFill
      rw [wfb_iff] at h ⊢
      obtain ⟨hw1, hw2, hw3, hw4, hw5, hw6, hw7⟩ := h
      obtain ⟨p, hp⟩ := Option.isSome_iff_exists.mp (hw6 h2)
      have hfillfalse : i.hasFill = false := by
        rcases hw5 with h5 | h5
        · exact h5
        · rw [h5] at h2; exact absurd h2 (by simp)
      simp only [Mipmap.ReplacePixels, hp, Option.getD_some]
      refine ⟨hw1, hw2, hw4 p hp, ?_, Or.inl hfillfalse, ?_, ?_⟩
      · intro q hq
        cases keep with
        | true =>
          simp only [if_true] at hq
          cases hq
          exact hw4 p hp
        | false => exact Option.noConfusion hq
      · intro hcon
        exact absurd hcon (by simp)
      · intro hcon
        rw [hfillfalse] at hcon
        exact absurd hcon (by simp)
    · rw [if_neg h2]
      exact wfb_resolvePendingFill i h

theorem foldlM_length (f : List Nat → Nat → Option (List Nat))
    (hf : ∀ acc j res, f acc j = some res → res.length = acc.length) :
    ∀ (l : List Nat) (init res : List Nat),
      l.foldlM f init = some res → res.length = init.length := by
  intro l
  induction l with
  | nil =>
    intro init res h
    rw [List.foldlM_nil] at h
    cases h
    rfl
  | cons a l ih =>
    intro init res h
    rw [List.foldlM_cons] at h
    cases hfa : f init a with
    | none => rw [hfa] at h; exact absurd h (by simp)
    | some mid =>
      rw [hfa] at h
      exact (ih mid res h).trans (hf init a mid hfa)

theorem replacePendingPixels_shape (i : Image) (pix : List Nat) (x y w h : Int)
    (i₃ : Image) (hsome : i.replacePendingPixels pix x y w h = some i₃) :
    ∃ out, i₃ = { i with pixels := some out, needsToResolvePixels := true } ∧
      out.length = (i.pixels.getD []).length := by
  rw [Image.replacePendingPixels] at hsome
  cases hfold : (List.range h.toNat).foldlM
      (fun acc j => replaceRow i.width x y w pix acc j) (i.pixels.getD []) with
  | none => rw [hfold] at hsome; exact absurd hsome (by simp)
  | some out =>
    rw [hfold] at hsome
    refine ⟨out, ?_, ?_⟩
    · injection hsome with h'
      exact h'.symm
    · refine foldlM_length _ ?_ _ _ _ hfold
      intro acc j res hres
      rw [replaceRow] at hres
      split at hres
      · exact absurd hres (by simp)
      · injection hres with h'
        rw [← h', listCopy_length]

theorem wfb_MarkDisposed (i : Image) (h : i.wfb = true) : i.MarkDisposed.wfb = true := by
  rw [wfb_iff] at h ⊢
  obtain ⟨h1, h2, h3, h4, h5, h6, h7⟩ := h
  simp only [Image.MarkDisposed, Image.invalidatePendingPixels, Mipmap.MarkDisposed]
  exact ⟨h1, h2, h3, by simp, by simp, by simp, by simp⟩

theorem wfb_mk (m : Mipmap) (W H : Nat) (hf : Bool) (fc : RGBA)
    (px : Option (List Nat)) (nd : Bool)
    (h1 : m.width = W) (h2 : m.height = H) (h3 : m.pix.length = 4 * (W * H))
    (h4 : ∀ p, px = some p → p.length = 4 * (W * H))
    (h5 : hf = false ∨ nd = false)
    (h6 : nd = true → px.isSome = true)
    (h7 : hf = true → px = none) :
    (Image.mk m W H hf fc px nd).wfb = true := by
  rw [wfb_iff]
  exact ⟨h1, h2, h3, h4, h5, h6, h7⟩

theorem wfb_Pixels (i : Image) (x y w h : Int) (hwf : i.wfb = true) :
    ((i.Pixels x y w h).2).wfb = true := by
  rw [Image.Pixels]
  split
  · exact hwf
  · split
    · exact hwf
    · split
      · exact hwf
      · rename_i hrect hneg hfill
        rw [wfb_iff] at hwf
        obtain ⟨h1, h2, h3, h4, h5, h6, h7⟩ := hwf
        cases hp : i.pixels with
        | none =>
          rcases hP : i.img.Pixels with ⟨res, m⟩
          have hm : m = { i.img with trace := i.img.trace ++ [.readPixels] } := by
            have h' := Mipmap_Pixels_snd i.img
            rw [hP] at h'
            exact h'
          cases res with
          | error e =>
            refine wfb_mk _ _ _ _ _ _ _ ?_ ?_ ?_ ?_ h5 ?_ ?_
            · rw [hm]; exact h1
            · rw [hm]; exact h2
            · rw [hm]; exact h3
            · intro p hpp
              exact Option.noConfusion hpp
            · intro hn
              have hs := h6 hn
              rw [hp] at hs
              exact absurd hs (by simp)
            · intro _
              rfl
          | ok full =>
            have hfv : full = i.img.pix :=
              Mipmap_Pixels_fst_ok i.img full (by rw [hP])
            have hrec : (Image.mk m i.width i.height i.hasFill i.fillColor
                (some full) i.needsToResolvePixels).wfb = true := by
              refine wfb_mk _ _ _ _ _ _ _ ?_ ?_ ?_ ?_ h5 (fun _ => rfl) ?_
              · rw [hm]; exact h1
              · rw [hm]; exact h2
              · rw [hm]; exact h3
              · intro p hpp
                cases hpp
                rw [hfv]
                exact h3
              · intro hfl
                exact absurd hfl (by simpa using hfill)
            show (match pixCopy full i.width x y w h with
              | none => ((Except.error BufErr.panicSlice : Except BufErr (List Nat)),
                  Image.mk m i.width i.height i.hasFill i.fillColor (some full)
                    i.needsToResolvePixels)
              | some out => (Except.ok out,
                  Image.mk m i.width i.height i.hasFill i.fillColor (some full)
                    i.needsToResolvePixels)).2.wfb = true
            cases pixCopy full i.width x y w h with
            | none => exact hrec
            | some out => exact hrec
        | some cache =>
          have hwf' : i.wfb = true := by
            rw [wfb_iff]
            exact ⟨h1, h2, h3, h4, h5, h6, h7⟩
          show (match pixCopy cache i.width x y w h with
            | none => ((Except.error BufErr.panicSlice :
                Except BufErr (List Nat)), i)
            | some out => (Except.ok out, i)).2.wfb = true
          cases pixCopy cache i.width x y w h with
          | none => exact hwf'
          | some out => exact hwf'

theorem resolvePendingFill_hasFill (i : Image) : i.resolvePendingFill.hasFill = false := by
  rw [Image.resolvePendingFill]
  by_cases h : i.hasFill = true
  · rw [if_pos h]
  · rw [if_neg h]
    simpa using h

theorem wfb_ReplacePixels (i : Image) (pix : List Nat) (x y w h : Int)
    (hwf : i.wfb = true) : ((i.ReplacePixels pix x y w h).2).wfb = true := by
  rw [Image.ReplacePixels]
  by_cases hsz : (pix.length : Int) ≠ 4 * w * h
  · rw [if_pos hsz]
    exact hwf
  · rw [if_neg hsz]
    by_cases hfull : x = 0 ∧ y = 0 ∧ w = (i.width : Int) ∧ h = (i.height : Int)
    · rw [if_pos hfull]
      rw [wfb_iff] at hwf
      obtain ⟨h1, h2, h3, h4, h5, h6, h7⟩ := hwf
      have hlen : pix.length = 4 * (i.width * i.height) := by
        push_neg at hsz
        rw [hfull.2.2.1, hfull.2.2.2] at hsz
        have h4' : ((4 * (i.width * i.height) : Nat) : Int) =
            4 * (i.width : Int) * (i.height : Int) := by push_cast; ring
        omega
      refine wfb_mk _ _ _ _ _ _ _ h1 h2 h3 ?_ (Or.inl rfl) (fun _ => rfl) ?_
      · intro p hpp
        cases hpp
        exact hlen
      · intro hc
        exact Bool.noConfusion hc
    · rw [if_neg hfull]
      simp only []
      have hwf1 : (i.resolvePendingFill).wfb = true := wfb_resolvePendingFill i hwf
      cases hp : (i.resolvePendingFill).pixels with
      | some cache =>
        show (match (i.resolvePendingFill).replacePendingPixels pix x y w h with
          | none => ((Except.error BufErr.panicSlice : Except BufErr Unit),
              i.resolvePendingFill)
          | some i₃ => (Except.ok (), i₃)).2.wfb = true
        cases hrp : (i.resolvePendingFill).replacePendingPixels pix x y w h with
        | none => exact hwf1
        | some i₃ =>
          obtain ⟨out, hi₃, hlen'⟩ :=
            replacePendingPixels_shape _ pix x y w h i₃ hrp
          rw [hi₃]
          rw [wfb_iff] at hwf1
          obtain ⟨g1, g2, g3, g4, g5, g6, g7⟩ := hwf1
          rw [hp] at hlen'
          simp only [Option.getD_some] at hlen'
          refine wfb_mk _ _ _ _ _ _ _ g1 g2 g3 ?_
            (Or.inl (resolvePendingFill_hasFill i)) (fun _ => rfl) ?_
          · intro p hpp
            cases hpp
            rw [hlen']
            exact g4 cache hp
          · intro hc
            rw [resolvePendingFill_hasFill] at hc
            exact absurd hc (by simp)
      | none =>
        rcases hP : (i.resolvePendingFill).img.Pixels with ⟨res, m⟩
        have hm : m = { (i.resolvePendingFill).img with
            trace := (i.resolvePendingFill).img.trace ++ [.readPixels] } := by
          have h' := Mipmap_Pixels_snd (i.resolvePendingFill).img
          rw [hP] at h'
          exact h'
        rw [wfb_iff] at hwf1
        obtain ⟨g1, g2, g3, g4, g5, g6, g7⟩ := hwf1
        cases res with
        | error e =>
          refine wfb_mk _ _ _ _ _ _ _ ?_ ?_ ?_ ?_ g5 ?_ ?_
          · rw [hm]; exact g1
          · rw [hm]; exact g2
          · rw [hm]; exact g3
          · intro p hpp
            exact Option.noConfusion hpp
          · intro hn
            have hs := g6 hn
            rw [hp] at hs
            exact absurd hs (by simp)
          · intro _
            rfl
        | ok full =>
          have hfv : full = (i.resolvePendingFill).img.pix :=
            Mipmap_Pixels_fst_ok (i.resolvePendingFill).img full (by rw [hP])
          show (match (Image.mk m (i.resolvePendingFill).width
              (i.resolvePendingFill).height (i.resolvePendingFill).hasFill
              (i.resolvePendingFill).fillColor (some full)
              (i.resolvePendingFill).needsToResolvePixels).replacePendingPixels
                pix x y w h with
            | none => ((Except.error BufErr.panicSlice : Except BufErr Unit),
                Image.mk m (i.resolvePendingFill).width
                  (i.resolvePendingFill).height (i.resolvePendingFill).hasFill
                  (i.resolvePendingFill).fillColor (some full)
                  (i.resolvePendingFill).needsToResolvePixels)
            | some i₃ => (Except.ok (), i₃)).2.wfb = true
          have hbase : (Image.mk m (i.resolvePendingFill).width
              (i.resolvePendingFill).height (i.resolvePendingFill).hasFill
              (i.resolvePendingFill).fillColor (some full)
              (i.resolvePendingFill).needsToResolvePixels).wfb = true := by
            refine wfb_mk _ _ _ _ _ _ _ ?_ ?_ ?_ ?_ g5 (fun _ => rfl) ?_
            · rw [hm]; exact g1
            · rw [hm]; exact g2
            · rw [hm]; exact g3
            · intro p hpp
              cases hpp
              rw [hfv]
              exact g3
            · intro hc
              rw [resolvePendingFill_hasFill] at hc
              exact absurd hc (by simp)
          have hrec : ∀ i₃, (Image.mk m (i.resolvePendingFill).width
              (i.resolvePendingFill).height (i.resolvePendingFill).hasFill
              (i.resolvePendingFill).fillColor (some full)
              (i.resolvePendingFill).needsToResolvePixels).replacePendingPixels
                pix x y w h = some i₃ → i₃.wfb = true := by
            intro i₃ hrp
            obtain ⟨out, hi₃, hlen'⟩ :=
              replacePendingPixels_shape _ pix x y w h i₃ hrp
            rw [hi₃]
            simp only [Option.getD_some] at hlen'
            refine wfb_mk _ _ _ _ _ _ _ ?_ ?_ ?_ ?_
              (Or.inl (resolvePendingFill_hasFill i)) (fun _ => rfl) ?_
            · rw [hm]; exact g1
            · rw [hm]; exact g2
            · rw [hm]; exact g3
            · intro p hpp
              cases hpp
              rw [hlen', hfv]
              exact g3
            · intro hc
              rw [resolvePendingFill_hasFill] at hc
              exact absurd hc (by simp)
          cases hrp : (Image.mk m (i.resolvePendingFill).width
              (i.resolvePendingFill).height (i.resolvePendingFill).hasFill
              (i.resolvePendingFill).fillColor (some full)
              (i.resolvePendingFill).needsToResolvePixels).replacePendingPixels
                pix x y w h with
          | none => exact hbase
          | some i₃ => exact hrec i₃ hrp

theorem wfb_CopyPixelsSelf (i : Image) (x y w h : Int) (hwf : i.wfb = true) :
    ((i.CopyPixelsSelf x y w h).2).wfb = true := by
  rw [Image.CopyPixelsSelf]
  rcases hP : i.Pixels x y w h with ⟨res, i'⟩
  have hwf' : i'.wfb = true := by
    have h' := wfb_Pixels i x y w h hwf
    rw [hP] at h'
    exact h'
  cases res with
  | error e => exact hwf'
  | ok pix => exact wfb_ReplacePixels i' pix 0 0 w h hwf'

theorem wfb_mkImage (w h : Nat) : (mkImage w h).wfb = true := by
  rw [mkImage]
  refine wfb_mk _ _ _ _ _ _ _ rfl rfl ?_ ?_ (Or.inl rfl) ?_ ?_
  · rw [List.length_replicate]
  · intro p hp
    exact Option.noConfusion hp
  · intro hc
    exact Bool.noConfusion hc
  · intro hc
    exact Bool.noConfusion hc

theorem wfb_applyOp (i : Image) (op : Op) (h : i.wfb = true) :
    (applyOp i op).wfb = true := by
  cases op with
  | fill c => exact wfb_Fill i c h
  | replacePixels pix x y w hh => exact wfb_ReplacePixels i pix x y w hh h
  | pixels x y w hh => exact wfb_Pixels i x y w hh h
  | copyPixelsSelf x y w hh => exact wfb_CopyPixelsSelf i x y w hh h
  | resolve keep => exact wfb_resolvePendingPixels i keep h
  | markDisposed => exact wfb_MarkDisposed i h

theorem wfb_applySeq (i : Image) (ops : List Op) (h : i.wfb = true) :
    (ops.foldl applyOp i).wfb = true := by
  induction ops generalizing i with
  | nil => exact h
  | cons op ops ih =>
    rw [List.foldl_cons]
    exact ih (applyOp i op) (wfb_applyOp i op h)

theorem foldl_Fill_fields (i : Image) (cs : List RGBA) :
    (cs.foldl Image.Fill i).img = i.img ∧ (cs.foldl Image.Fill i).width = i.width ∧
      (cs.foldl Image.Fill i).height = i.height := by
  induction cs generalizing i with
  | nil => exact ⟨rfl, rfl, rfl⟩
  | cons c cs ih =>
    rw [List.foldl_cons]
    exact ih (i.Fill c)

theorem Fill_resolve_trace (j : Image) (c : RGBA) (keep : Bool) :
    (((j.Fill c).resolvePendingPixels keep).2).img.trace = j.img.trace ++ [.fill c] := by
  simp [Image.resolvePendingPixels, Image.Fill, Image.invalidatePendingPixels,
    Image.resolvePendingFill, Mipmap.Fill]

/-- C1: for every sequence of `Fill` calls with no intervening operation, no
GPU call is made while filling, a subsequent full `Pixels` read returns a
buffer in which every pixel is the last fill color (and makes no GPU call),
and resolution pushes exactly one fill — the last color — to the resource. -/
theorem c1_last_fill_wins (i : Image) (cs : List RGBA) (c : RGBA) :
    ((cs ++ [c]).foldl Image.Fill i).img = i.img ∧
    ((cs ++ [c]).foldl Image.Fill i).hasFill = true ∧
    ((cs ++ [c]).foldl Image.Fill i).fillColor = c ∧
    ((cs ++ [c]).foldl Image.Fill i).pixels = none ∧
    (((cs ++ [c]).foldl Image.Fill i).Pixels 0 0 (i.width : Int) (i.height : Int)).1 =
      .ok (fillBytes c (i.width * i.height)) ∧
    (((cs ++ [c]).foldl Image.Fill i).Pixels 0 0 (i.width : Int)
      (i.height : Int)).2.img = i.img ∧
    ∀ keep : Bool,
      ((((cs ++ [c]).foldl Image.Fill i).resolvePendingPixels keep).2).img.trace =
        i.img.trace ++ [.fill c] := by
  have hsplit : (cs ++ [c]).foldl Image.Fill i = (cs.foldl Image.Fill i).Fill c := by
    rw [List.foldl_append, List.foldl_cons, List.foldl_nil]
  obtain ⟨hA, hB, hC⟩ := foldl_Fill_fields i cs
  rw [hsplit, ← hB, ← hC]
  have hast : ((cs.foldl Image.Fill i).Fill c).Pixels 0 0
      ((cs.foldl Image.Fill i).width : Int) ((cs.foldl Image.Fill i).height : Int) =
      (.ok (fillBytes c
        ((cs.foldl Image.Fill i).width * (cs.foldl Image.Fill i).height)),
        (cs.foldl Image.Fill i).Fill c) :=
    Pixels_full_fill ((cs.foldl Image.Fill i).Fill c) rfl
  refine ⟨hA, rfl, rfl, rfl, ?_, ?_, ?_⟩
  · rw [hast]
  · rw [hast]
    exact hA
  · intro keep
    rw [Fill_resolve_trace, hA]

/-- C2: a full-region `ReplacePixels` followed immediately by a full `Pixels`
read returns exactly the written bytes, and neither the write nor the read
issues any call on the Resolved Resource. -/
theorem c2_full_replace_roundtrip (i : Image) (buf : List Nat)
    (hlen : buf.length = 4 * (i.width * i.height)) :
    (i.ReplacePixels buf 0 0 (i.width : Int) (i.height : Int)).1 = .ok () ∧
    (i.ReplacePixels buf 0 0 (i.width : Int) (i.height : Int)).2.img = i.img ∧
    ((i.ReplacePixels buf 0 0 (i.width : Int) (i.height : Int)).2.Pixels 0 0
      (i.width : Int) (i.height : Int)).1 = .ok buf ∧
    ((i.ReplacePixels buf 0 0 (i.width : Int) (i.height : Int)).2.Pixels 0 0
      (i.width : Int) (i.height : Int)).2.img = i.img := by
  have hrep := ReplacePixels_full i buf hlen
  have hpx : ({ i with
      hasFill := false
      pixels := some buf
      needsToResolvePixels := true } : Image).Pixels 0 0
        (i.width : Int) (i.height : Int) =
      (.ok buf, { i with
        hasFill := false
        pixels := some buf
        needsToResolvePixels := true }) :=
    Pixels_full_cached _ buf rfl rfl hlen
  rw [hrep]
  simp only []
  rw [hpx]
  exact ⟨trivial, trivial, rfl, rfl⟩

theorem c2_full_replace_roundtrip_witness :
    (((mkImage 1 1).ReplacePixels [1, 2, 3, 4] 0 0 1 1).2.Pixels 0 0 1 1).1 =
      .ok [1, 2, 3, 4] :=
  (c2_full_replace_roundtrip (mkImage 1 1) [1, 2, 3, 4] (by decide)).2.2.1

/-- C4: starting from a fresh image, no sequence of public operations ever
reaches a state with both a pending fill and a pending pixel buffer; `Fill`
clears the pending pixel state while setting the fill, and a full-region
`ReplacePixels` clears the pending fill while setting the pixel buffer. -/
theorem c4_pending_exclusive :
    (∀ (w h : Nat) (ops : List Op),
      (ops.foldl applyOp (mkImage w h)).hasFill = false ∨
        (ops.foldl applyOp (mkImage w h)).needsToResolvePixels = false) ∧
    (∀ (i : Image) (c : RGBA),
      (i.Fill c).pixels = none ∧ (i.Fill c).needsToResolvePixels = false ∧
        (i.Fill c).hasFill = true ∧ (i.Fill c).fillColor = c) ∧
    (∀ (i : Image) (buf : List Nat), buf.length = 4 * (i.width * i.height) →
      (i.ReplacePixels buf 0 0 (i.width : Int) (i.height : Int)).2.hasFill = false ∧
        (i.ReplacePixels buf 0 0 (i.width : Int) (i.height : Int)).2.pixels =
          some buf ∧
        (i.ReplacePixels buf 0 0 (i.width : Int)
          (i.height : Int)).2.needsToResolvePixels = true) := by
  refine ⟨?_, ?_, ?_⟩
  · intro w h ops
    have hw := wfb_applySeq (mkImage w h) ops (wfb_mkImage w h)
    obtain ⟨_, _, _, _, h5, _, _⟩ := (wfb_iff _).mp hw
    exact h5
  · intro i c
    exact ⟨rfl, rfl, rfl, rfl⟩
  · intro i buf hlen
    rw [ReplacePixels_full i buf hlen]
    exact ⟨rfl, rfl, rfl⟩

theorem c4_pending_exclusive_witness :
    ((mkImage 1 1).ReplacePixels [5, 6, 7, 8] 0 0 1 1).2.hasFill = false ∧
      ((mkImage 1 1).Fill ⟨9, 9, 9, 9⟩).pixels = none :=
  ⟨(c4_pending_exclusive.2.2 (mkImage 1 1) [5, 6, 7, 8] (by decide)).1,
    (c4_pending_exclusive.2.1 (mkImage 1 1) ⟨9, 9, 9, 9⟩).1⟩

/-- C5 (amended): `Pixels` returns the recoverable out-of-range error for
every region with positive width and height that leaves the image bounds;
an in-bounds region always succeeds on a well-formed image whose resource
read does not fail.  Degenerate regions escape the guarantee in
state-dependent ways: Go's `image.Rectangle.In` accepts every empty
rectangle, so a zero-width region at x = -1 passes the range check and
succeeds with an empty result when a fill is pending (see the
counterexample) but hits a fatal slice-bounds panic in the row-copy loop
when pixels have to be copied, while a negative width canonicalizes into a
non-empty rectangle that is itself out of range here. -/
theorem c5_pixels_range_amended :
    (∀ (i : Image) (x y w h : Int), 0 < w → 0 < h →
      (x < 0 ∨ y < 0 ∨ (i.width : Int) < x + w ∨ (i.height : Int) < y + h) →
      (i.Pixels x y w h).1 = .error .outOfRange) ∧
    (∀ (i : Image) (x y w h : Nat), i.wfb = true → i.img.readErr = none →
      x + w ≤ i.width → y + h ≤ i.height →
      ∃ out, (i.Pixels (x : Int) (y : Int) (w : Int) (h : Int)).1 = .ok out) ∧
    ((mkImage 4 4).Pixels (-1) 0 0 1).1 = .error .panicSlice ∧
    ((mkImage 4 4).Pixels 0 0 (-1) 1).1 = .error .outOfRange := by
  refine ⟨?_, ?_, by decide, by decide⟩
  · intro i x y w h hw hh hout
    rw [Image.Pixels]
    rw [if_pos (goRectIn_oob x y w h i.width i.height hw hh hout)]
  · intro i x y w h hwf herr hx hy
    exact Pixels_inbounds_ok i x y w h hwf herr hx hy

theorem c5_pixels_range_amended_witness :
    ((mkImage 4 4).Pixels (-1) 0 1 1).1 = .error .outOfRange ∧
      ∃ out, ((mkImage 4 4).Pixels 0 0 1 1).1 = .ok out :=
  ⟨c5_pixels_range_amended.1 (mkImage 4 4) (-1) 0 1 1 (by decide) (by decide)
      (Or.inl (by decide)),
    c5_pixels_range_amended.2.1 (mkImage 4 4) 0 0 1 1 (by decide) rfl
      (by decide) (by decide)⟩

/-- C5 counterexample: the claim demands a range error for *every* region
with `x < 0`, but a zero-width region at `x = -1` is an empty rectangle,
`image.Rect(-1,0,-1,1).In(bounds)` is true, and `Pixels` succeeds (here on a
filled 4×4 image, returning an empty byte slice). -/
theorem c5_pixels_range_cex :
    ((-1 : Int) < 0) ∧
      (((mkImage 4 4).Fill ⟨255, 0, 0, 255⟩).Pixels (-1) 0 0 1).1 = .ok [] :=
  ⟨by decide, by decide⟩

theorem pixCopy_ok2 (cache : List Nat) (W H x y w h : Nat)
    (hc : cache.length = 4 * (W * H)) (hx : x + w ≤ W) (hy : y + h ≤ H) :
    ∃ out, pixCopy cache W (x : Int) (y : Int) (w : Int) (h : Int) = some out ∧
      out.length = 4 * (w * h) := by
  rw [pixCopy_coe]
  obtain ⟨out, hout, hlen, _⟩ := pixFoldN_char cache W H x y w h
    (List.replicate (4 * (w * h)) 0) hx hy hc (by rw [List.length_replicate])
  exact ⟨out, hout, by rw [hlen, List.length_replicate]⟩

theorem Pixels_fill_region (i : Image) (x y w h : Nat) (hf : i.hasFill = true)
    (hx : x + w ≤ i.width) (hy : y + h ≤ i.height) :
    i.Pixels (x : Int) (y : Int) (w : Int) (h : Int) =
      (.ok (fillBytes i.fillColor (w * h)), i) := by
  rw [Image.Pixels]
  rw [if_neg (by simp [goRectIn_inbounds x y w h i.width i.height hx hy]),
    if_neg (not_lt.mpr (by positivity)), if_pos hf]
  rw [show ((w : Int) * (h : Int)).toNat = w * h from by
    rw [show (w : Int) * (h : Int) = ((w * h : Nat) : Int) from by push_cast; ring,
      Int.toNat_natCast]]

theorem Pixels_cached_region (i : Image) (cache : List Nat) (x y w h : Nat)
    (hf : i.hasFill = false) (hp : i.pixels = some cache)
    (hc : cache.length = 4 * (i.width * i.height))
    (hx : x + w ≤ i.width) (hy : y + h ≤ i.height) :
    ∃ out, i.Pixels (x : Int) (y : Int) (w : Int) (h : Int) = (.ok out, i) ∧
      out.length = 4 * (w * h) := by
  obtain ⟨out, hout, hlen⟩ := pixCopy_ok2 cache i.width i.height x y w h hc hx hy
  refine ⟨out, ?_, hlen⟩
  rw [Image.Pixels]
  rw [if_neg (by simp [goRectIn_inbounds x y w h i.width i.height hx hy]),
    if_neg (not_lt.mpr (by positivity)), if_neg (by rw [hf]; simp), hp]
  simp only [hout]

theorem Pixels_nocache_region (i : Image) (x y w h : Nat)
    (hf : i.hasFill = false) (hpn : i.pixels = none) (herr : i.img.readErr = none)
    (hlen3 : i.img.pix.length = 4 * (i.width * i.height))
    (hx : x + w ≤ i.width) (hy : y + h ≤ i.height) :
    ∃ out, i.Pixels (x : Int) (y : Int) (w : Int) (h : Int) =
        (.ok out, { i with
          img := { i.img with trace := i.img.trace ++ [.readPixels] },
          pixels := some i.img.pix }) ∧
      out.length = 4 * (w * h) := by
  obtain ⟨out, hout, hlen⟩ := pixCopy_ok2 i.img.pix i.width i.height x y w h hlen3 hx hy
  refine ⟨out, ?_, hlen⟩
  rw [Image.Pixels]
  rw [if_neg (by simp [goRectIn_inbounds x y w h i.width i.height hx hy]),
    if_neg (not_lt.mpr (by positivity)), if_neg (by rw [hf]; simp), hpn,
    Mipmap_Pixels_ok i.img herr]
  simp only [hout]

/-- C7 (amended): on the strictly partial `ReplacePixels` path the pending
fill is *not* synthesized locally; it is resolved by a GPU fill push to the
resource followed by a full GPU read-back (two resource calls).  A read-back
happens exactly when no local pixel buffer exists after fill resolution —
in particular the fill-pending case always incurs it — and with a cached
buffer and no fill, no resource call is made at all. -/
theorem c7_partial_replace_amended :
    (∀ (i : Image) (buf : List Nat) (x y w h : Nat),
      i.hasFill = true → i.pixels = none → i.img.readErr = none →
      i.img.width = i.width → i.img.height = i.height →
      buf.length = 4 * (w * h) →
      x + w ≤ i.width → y + h ≤ i.height →
      ¬(x = 0 ∧ y = 0 ∧ w = i.width ∧ h = i.height) →
      (i.ReplacePixels buf (x : Int) (y : Int) (w : Int) (h : Int)).1 = .ok () ∧
      (i.ReplacePixels buf (x : Int) (y : Int) (w : Int) (h : Int)).2.img.trace =
        i.img.trace ++ [.fill i.fillColor, .readPixels] ∧
      (i.ReplacePixels buf (x : Int) (y : Int) (w : Int) (h : Int)).2.hasFill = false ∧
      (i.ReplacePixels buf (x : Int) (y : Int) (w : Int)
        (h : Int)).2.needsToResolvePixels = true) ∧
    (∀ (i : Image) (buf : List Nat) (x y w h : Nat),
      i.hasFill = false → i.pixels = none → i.img.readErr = none →
      i.img.pix.length = 4 * (i.width * i.height) →
      buf.length = 4 * (w * h) →
      x + w ≤ i.width → y + h ≤ i.height →
      ¬(x = 0 ∧ y = 0 ∧ w = i.width ∧ h = i.height) →
      (i.ReplacePixels buf (x : Int) (y : Int) (w : Int) (h : Int)).1 = .ok () ∧
      (i.ReplacePixels buf (x : Int) (y : Int) (w : Int) (h : Int)).2.img.trace =
        i.img.trace ++ [.readPixels]) ∧
    (∀ (i : Image) (cache buf : List Nat) (x y w h : Nat),
      i.hasFill = false → i.pixels = some cache →
      cache.length = 4 * (i.width * i.height) →
      buf.length = 4 * (w * h) →
      x + w ≤ i.width → y + h ≤ i.height →
      ¬(x = 0 ∧ y = 0 ∧ w = i.width ∧ h = i.height) →
      (i.ReplacePixels buf (x : Int) (y : Int) (w : Int) (h : Int)).1 = .ok () ∧
      (i.ReplacePixels buf (x : Int) (y : Int) (w : Int) (h : Int)).2.img = i.img) := by
  refine ⟨?_, ?_, ?_⟩
  · intro i buf x y w h hf hpn herr hw1 hw2 hb hx hy hpart
    have hsz : (buf.length : Int) = 4 * (w : Int) * (h : Int) := by
      rw [hb]; push_cast; ring
    have hcomm := ReplacePixels_resolveFill_comm i buf (x : Int) (y : Int) (w : Int)
      (h : Int) hf hsz (castRegion_ne_full i x y w h hpart)
    have hlen3 : (({ i with img := i.img.Fill i.fillColor, hasFill := false } :
        Image)).img.pix.length = 4 * (i.width * i.height) := by
      have hfb : (fillBytes i.fillColor (i.img.width * i.img.height)).length =
          4 * (i.img.width * i.img.height) := fillBytes_length ..
      exact hfb.trans (by rw [hw1, hw2])
    obtain ⟨cache', heq, _, _⟩ := ReplacePixels_partial_nofill_nocache
      { i with img := i.img.Fill i.fillColor, hasFill := false } buf x y w h
      rfl hpn herr hlen3 hb hx hy hpart
    rw [hcomm, heq]
    refine ⟨rfl, ?_, rfl, rfl⟩
    show (i.img.trace ++ [GpuOp.fill i.fillColor]) ++ [GpuOp.readPixels] =
      i.img.trace ++ [GpuOp.fill i.fillColor, GpuOp.readPixels]
    rw [List.append_assoc]
    rfl
  · intro i buf x y w h hf hpn herr hlen3 hb hx hy hpart
    obtain ⟨cache', heq, _, _⟩ := ReplacePixels_partial_nofill_nocache i buf x y w h
      hf hpn herr hlen3 hb hx hy hpart
    rw [heq]
    exact ⟨rfl, rfl⟩
  · intro i cache buf x y w h hf hp hc hb hx hy hpart
    obtain ⟨cache', heq, _, _⟩ := ReplacePixels_partial_cached i cache buf x y w h
      hf hp hc hb hx hy hpart
    rw [heq]
    exact ⟨rfl, rfl⟩

theorem c7_partial_replace_amended_witness :
    (((mkImage 2 2).Fill ⟨9, 8, 7, 6⟩).ReplacePixels [1, 2, 3, 4] 1 1 1 1).2.img.trace =
      [.fill ⟨9, 8, 7, 6⟩, .readPixels] :=
  (c7_partial_replace_amended.1 ((mkImage 2 2).Fill ⟨9, 8, 7, 6⟩) [1, 2, 3, 4]
    1 1 1 1 (by decide) (by decide) (by decide) (by decide) (by decide)
    (by decide) (by decide) (by decide) (by decide)).2.1

/-- C7 counterexample: with a fill pending, a strictly partial
`ReplacePixels` pushes the fill to the resource and reads the image back —
two GPU calls — although the claim says the fill is materialized locally and
a read-back happens only when no fill is pending. -/
theorem c7_partial_replace_cex :
    ((mkImage 2 2).Fill ⟨9, 8, 7, 6⟩).hasFill = true ∧
      (((mkImage 2 2).Fill ⟨9, 8, 7, 6⟩).ReplacePixels
        [1, 2, 3, 4] 1 1 1 1).2.img.trace = [.fill ⟨9, 8, 7, 6⟩, .readPixels] :=
  ⟨by decide, by decide⟩

/-- C9 (amended): a resource read failure is propagated to the caller
unchanged by `Pixels`, `ReplacePixels` and `CopyPixels`.  The pending state
(fill flag, fill color, pixel buffer, resolve flag) is left exactly as it was
in every case except one: a strictly partial `ReplacePixels` with a pending
fill resolves that fill to the resource *before* the failing read, so the
fill flag is cleared (the fill color, buffer and resolve flag still keep
their values and the fill has been pushed, so no information is lost). -/
theorem c9_error_propagation_amended :
    (∀ (i : Image) (x y w h e : Nat),
      i.hasFill = false → i.pixels = none → i.img.readErr = some e →
      x + w ≤ i.width → y + h ≤ i.height →
      (i.Pixels (x : Int) (y : Int) (w : Int) (h : Int)).1 = .error (.resource e) ∧
      (i.Pixels (x : Int) (y : Int) (w : Int) (h : Int)).2.hasFill = i.hasFill ∧
      (i.Pixels (x : Int) (y : Int) (w : Int) (h : Int)).2.fillColor = i.fillColor ∧
      (i.Pixels (x : Int) (y : Int) (w : Int) (h : Int)).2.pixels = i.pixels ∧
      (i.Pixels (x : Int) (y : Int) (w : Int)
        (h : Int)).2.needsToResolvePixels = i.needsToResolvePixels) ∧
    (∀ (i : Image) (buf : List Nat) (x y w h e : Nat),
      i.hasFill = false → i.pixels = none → i.img.readErr = some e →
      buf.length = 4 * (w * h) →
      ¬(x = 0 ∧ y = 0 ∧ w = i.width ∧ h = i.height) →
      (i.ReplacePixels buf (x : Int) (y : Int) (w : Int) (h : Int)).1 =
        .error (.resource e) ∧
      (i.ReplacePixels buf (x : Int) (y : Int) (w : Int) (h : Int)).2.hasFill =
        i.hasFill ∧
      (i.ReplacePixels buf (x : Int) (y : Int) (w : Int) (h : Int)).2.fillColor =
        i.fillColor ∧
      (i.ReplacePixels buf (x : Int) (y : Int) (w : Int) (h : Int)).2.pixels =
        i.pixels ∧
      (i.ReplacePixels buf (x : Int) (y : Int) (w : Int)
        (h : Int)).2.needsToResolvePixels = i.needsToResolvePixels) ∧
    (∀ (i : Image) (buf : List Nat) (x y w h e : Nat),
      i.hasFill = true → i.pixels = none → i.img.readErr = some e →
      buf.length = 4 * (w * h) →
      ¬(x = 0 ∧ y = 0 ∧ w = i.width ∧ h = i.height) →
      (i.ReplacePixels buf (x : Int) (y : Int) (w : Int) (h : Int)).1 =
        .error (.resource e) ∧
      (i.ReplacePixels buf (x : Int) (y : Int) (w : Int) (h : Int)).2.fillColor =
        i.fillColor ∧
      (i.ReplacePixels buf (x : Int) (y : Int) (w : Int) (h : Int)).2.pixels =
        i.pixels ∧
      (i.ReplacePixels buf (x : Int) (y : Int) (w : Int)
        (h : Int)).2.needsToResolvePixels = i.needsToResolvePixels ∧
      (i.ReplacePixels buf (x : Int) (y : Int) (w : Int) (h : Int)).2.hasFill =
        false ∧
      (i.ReplacePixels buf (x : Int) (y : Int) (w : Int) (h : Int)).2.img.trace =
        i.img.trace ++ [.fill i.fillColor, .readPixels]) ∧
    (∀ (i : Image) (x y w h e : Nat),
      i.hasFill = false → i.pixels = none → i.img.readErr = some e →
      x + w ≤ i.width → y + h ≤ i.height →
      (i.CopyPixelsSelf (x : Int) (y : Int) (w : Int) (h : Int)).1 =
        .error (.resource e) ∧
      (i.CopyPixelsSelf (x : Int) (y : Int) (w : Int) (h : Int)).2.hasFill =
        i.hasFill ∧
      (i.CopyPixelsSelf (x : Int) (y : Int) (w : Int) (h : Int)).2.fillColor =
        i.fillColor ∧
      (i.CopyPixelsSelf (x : Int) (y : Int) (w : Int) (h : Int)).2.pixels =
        i.pixels ∧
      (i.CopyPixelsSelf (x : Int) (y : Int) (w : Int)
        (h : Int)).2.needsToResolvePixels = i.needsToResolvePixels) := by
  refine ⟨?_, ?_, ?_, ?_⟩
  · intro i x y w h e hf hpn herr hx hy
    rw [Pixels_err i x y w h e hf hpn herr hx hy]
    exact ⟨rfl, rfl, rfl, rfl, rfl⟩
  · intro i buf x y w h e hf hpn herr hb hpart
    rw [ReplacePixels_partial_nofill_nocache_err i buf x y w h e hf hpn herr hb hpart]
    exact ⟨rfl, rfl, rfl, rfl, rfl⟩
  · intro i buf x y w h e hf hpn herr hb hpart
    have hsz : (buf.length : Int) = 4 * (w : Int) * (h : Int) := by
      rw [hb]; push_cast; ring
    rw [ReplacePixels_resolveFill_comm i buf (x : Int) (y : Int) (w : Int) (h : Int)
      hf hsz (castRegion_ne_full i x y w h hpart)]
    rw [ReplacePixels_partial_nofill_nocache_err
      { i with img := i.img.Fill i.fillColor, hasFill := false } buf x y w h e
      rfl hpn herr hb hpart]
    refine ⟨rfl, rfl, rfl, rfl, rfl, ?_⟩
    show (i.img.trace ++ [GpuOp.fill i.fillColor]) ++ [GpuOp.readPixels] =
      i.img.trace ++ [GpuOp.fill i.fillColor, GpuOp.readPixels]
    rw [List.append_assoc]
    rfl
  · intro i x y w h e hf hpn herr hx hy
    rw [Image.CopyPixelsSelf]
    rw [Pixels_err i x y w h e hf hpn herr hx hy]
    exact ⟨rfl, rfl, rfl, rfl, rfl⟩

theorem c9_error_propagation_amended_witness :
    (({ mkImage 2 2 with
        img := { (mkImage 2 2).img with readErr := some 7 } } : Image).Pixels
          0 0 1 1).1 = .error (.resource 7) :=
  (c9_error_propagation_amended.1
    { mkImage 2 2 with img := { (mkImage 2 2).img with readErr := some 7 } }
    0 0 1 1 7 (by decide) (by decide) (by decide) (by decide) (by decide)).1

/-- C9 counterexample: the claim requires pending state to be identical after
a failed call; but a strictly partial `ReplacePixels` on an image with a
pending fill and a failing resource read returns the propagated error with
the fill flag cleared (the fill was pushed to the resource first). -/
theorem c9_error_propagation_cex :
    (({ mkImage 2 2 with
        img := { (mkImage 2 2).img with readErr := some 7 } } : Image).Fill
          ⟨1, 2, 3, 4⟩).hasFill = true ∧
    ((({ mkImage 2 2 with
        img := { (mkImage 2 2).img with readErr := some 7 } } : Image).Fill
          ⟨1, 2, 3, 4⟩).ReplacePixels [9, 9, 9, 9] 1 1 1 1).1 =
      .error (.resource 7) ∧
    ((({ mkImage 2 2 with
        img := { (mkImage 2 2).img with readErr := some 7 } } : Image).Fill
          ⟨1, 2, 3, 4⟩).ReplacePixels [9, 9, 9, 9] 1 1 1 1).2.hasFill = false :=
  ⟨by decide, by decide, by decide⟩

/-- C10 (amended): `CopyPixels` with the destination equal to the source
performs no aliasing check and never fails fatally for an in-bounds region
on a well-formed image whose resource reads succeed: it reads the region
from the image itself via `Pixels` and then calls `ReplacePixels` with the
result at the origin with the region's own width and height — a full-region
replace only when the region covers the whole image, a partial one
otherwise. -/
theorem c10_copy_self_amended (i : Image) (x y w h : Nat)
    (hwf : i.wfb = true) (herr : i.img.readErr = none)
    (hx : x + w ≤ i.width) (hy : y + h ≤ i.height) :
    (i.CopyPixelsSelf (x : Int) (y : Int) (w : Int) (h : Int)).1 = .ok () := by
  obtain ⟨h1, h2, h3, h4, h5, h6, h7⟩ := (wfb_iff i).mp hwf
  rw [Image.CopyPixelsSelf]
  by_cases hf : i.hasFill = true
  · have hpn : i.pixels = none := h7 hf
    rw [Pixels_fill_region i x y w h hf hx hy]
    simp only []
    by_cases hfull : w = i.width ∧ h = i.height
    · obtain ⟨hw', hh'⟩ := hfull
      subst hw' hh'
      rw [ReplacePixels_full i _ (by rw [fillBytes_length])]
    · have hsz : (((fillBytes i.fillColor (w * h)).length : Nat) : Int) =
          4 * (w : Int) * (h : Int) := by
        rw [fillBytes_length]; push_cast; ring
      have hpartI : ¬((0 : Int) = 0 ∧ (0 : Int) = 0 ∧ ((w : Int)) = (i.width : Int) ∧
          ((h : Int)) = (i.height : Int)) := by
        rintro ⟨-, -, hw', hh'⟩
        exact hfull ⟨by exact_mod_cast hw', by exact_mod_cast hh'⟩
      rw [ReplacePixels_resolveFill_comm i _ 0 0 (w : Int) (h : Int) hf hsz hpartI]
      have hlen3 : ({ i with img := i.img.Fill i.fillColor, hasFill := false } :
          Image).img.pix.length = 4 * (i.width * i.height) := by
        have hfb := fillBytes_length i.fillColor (i.img.width * i.img.height)
        exact hfb.trans (by rw [h1, h2])
      have hpartN : ¬((0 : Nat) = 0 ∧ (0 : Nat) = 0 ∧ w = i.width ∧ h = i.height) := by
        rintro ⟨-, -, hw', hh'⟩
        exact hfull ⟨hw', hh'⟩
      obtain ⟨cache', heq, _, _⟩ := ReplacePixels_partial_nofill_nocache
        { i with img := i.img.Fill i.fillColor, hasFill := false }
        (fillBytes i.fillColor (w * h)) 0 0 w h rfl hpn herr hlen3
        (by rw [fillBytes_length]) (show 0 + w ≤ i.width by omega)
        (show 0 + h ≤ i.height by omega) hpartN
      simp only [Nat.cast_zero] at heq
      rw [heq]
  · have hfe : i.hasFill = false := by simpa using hf
    cases hpc : i.pixels with
    | some cache =>
      obtain ⟨out, hout, hlen⟩ := Pixels_cached_region i cache x y w h hfe hpc
        (h4 cache hpc) hx hy
      rw [hout]
      simp only []
      by_cases hfull : w = i.width ∧ h = i.height
      · obtain ⟨hw', hh'⟩ := hfull
        subst hw' hh'
        rw [ReplacePixels_full i out (by rw [hlen])]
      · have hpartN : ¬((0 : Nat) = 0 ∧ (0 : Nat) = 0 ∧ w = i.width ∧
            h = i.height) := by
          rintro ⟨-, -, hw', hh'⟩
          exact hfull ⟨hw', hh'⟩
        obtain ⟨cache', heq, _, _⟩ := ReplacePixels_partial_cached i cache out
          0 0 w h hfe hpc (h4 cache hpc) hlen (by omega) (by omega) hpartN
        simp only [Nat.cast_zero] at heq
        rw [heq]
    | none =>
      obtain ⟨out, hout, hlen⟩ := Pixels_nocache_region i x y w h hfe hpc herr h3 hx hy
      rw [hout]
      simp only []
      by_cases hfull : w = i.width ∧ h = i.height
      · obtain ⟨hw', hh'⟩ := hfull
        subst hw' hh'
        have hr := ReplacePixels_full ({ i with
          img := { i.img with trace := i.img.trace ++ [.readPixels] },
          pixels := some i.img.pix } : Image) out (by exact hlen)
        rw [hr]
      · have hpartN : ¬((0 : Nat) = 0 ∧ (0 : Nat) = 0 ∧ w = i.width ∧
            h = i.height) := by
          rintro ⟨-, -, hw', hh'⟩
          exact hfull ⟨hw', hh'⟩
        obtain ⟨cache', heq, _, _⟩ := ReplacePixels_partial_cached
          ({ i with
            img := { i.img with trace := i.img.trace ++ [.readPixels] },
            pixels := some i.img.pix } : Image) i.img.pix out 0 0 w h
          hfe rfl (by exact h3) hlen (show 0 + w ≤ i.width by omega)
          (show 0 + h ≤ i.height by omega) hpartN
        simp only [Nat.cast_zero] at heq
        rw [heq]

theorem c10_copy_self_amended_witness :
    ((mkImage 2 2).CopyPixelsSelf 1 1 1 1).1 = .ok () :=
  c10_copy_self_amended (mkImage 2 2) 1 1 1 1 (by decide) (by decide)
    (by decide) (by decide)

/-- C10 counterexample: for a 1×1 region of a 2×2 image the claim's
"full-region `ReplacePixels` of the result" is impossible — a full-region
replace with the 4-byte result panics on the size check — while the actual
call succeeds as a partial replace at the origin, leaving the pixel outside
the written region unchanged. -/
theorem c10_copy_self_cex :
    ((((mkImage 2 2).ReplacePixels
        [0, 1, 2, 3, 4, 5, 6, 7, 8, 9, 10, 11, 12, 13, 14, 15] 0 0 2 2).2).CopyPixelsSelf
          1 1 1 1).1 = .ok () ∧
    ((((mkImage 2 2).ReplacePixels
        [0, 1, 2, 3, 4, 5, 6, 7, 8, 9, 10, 11, 12, 13, 14, 15] 0 0 2 2).2).CopyPixelsSelf
          1 1 1 1).2.pixels =
      some [12, 13, 14, 15, 4, 5, 6, 7, 8, 9, 10, 11, 12, 13, 14, 15] ∧
    ((((mkImage 2 2).ReplacePixels
        [0, 1, 2, 3, 4, 5, 6, 7, 8, 9, 10, 11, 12, 13, 14, 15] 0 0 2 2).2).ReplacePixels
          [12, 13, 14, 15] 0 0 2 2).1 = .error .panicSize :=
  ⟨by decide, by decide, by decide⟩

/-- C6: `DrawImage` called with the destination equal to the source, and
`DrawTriangles` called with the destination appearing among its sources (the
`src` argument or any image-typed uniform), panic with the heap of images
returned unchanged — no image has been resolved and no GPU call issued. -/
theorem c6_draw_alias_panics :
    (∀ (H : Nat → Image) (d : Nat), DrawImage H d d = (true, H)) ∧
    (∀ (H : Nat → Image) (d : Nat) (src : Option Nat) (uniforms : List Uni),
      d ∈ trianglesSrcs src uniforms → DrawTriangles H d src uniforms = (true, H)) := by
  refine ⟨?_, ?_⟩
  · intro H d
    rw [DrawImage, if_pos rfl]
  · intro H d src uniforms hmem
    rw [DrawTriangles]
    simp only []
    rw [if_pos hmem]

theorem c6_draw_alias_panics_witness :
    (DrawImage (fun _ => mkImage 1 1) 0 0).1 = true ∧
      (DrawTriangles (fun _ => mkImage 1 1) 0 (some 0) [Uni.other]).1 = true :=
  ⟨congrArg Prod.fst (c6_draw_alias_panics.1 (fun _ => mkImage 1 1) 0),
    congrArg Prod.fst
      (c6_draw_alias_panics.2 (fun _ => mkImage 1 1) 0 (some 0) [Uni.other]
        (by decide))⟩

theorem BeginFrame_eq (w : World) :
    BeginFrame w = ({ heap := (execList w.heap w.delayed).1, delayed := [], flushed := true }, (execList w.heap w.delayed).2) := by
  rw [BeginFrame]

theorem issue_capture (cs : List Cmd) (w0 : World) (h0 : w0.flushed = false)
    (hnp : ∀ c ∈ cs, cmdPanicsBeforeDefer c = false) :
    cs.foldl issue w0 = { w0 with delayed := w0.delayed ++ cs } := by
  induction cs generalizing w0 with
  | nil =>
    rw [List.foldl_nil, List.append_nil]
  | cons c cs ih =>
    rw [List.foldl_cons]
    rw [show issue w0 c = { w0 with delayed := w0.delayed ++ [c] } from by
      rw [issue, if_neg (by rw [hnp c (List.mem_cons_self c cs)]; simp),
        if_pos h0]]
    rw [ih { w0 with delayed := w0.delayed ++ [c] } h0
      (fun c' hc' => hnp c' (List.mem_cons_of_mem c hc'))]
    rw [List.append_assoc]
    rfl

/-- C3 (spec-modelled deferral queue): every non-panicking mutating call
issued before the first `BeginFrame` is captured in order and not executed
(the heap is untouched); the first `BeginFrame` replays exactly the captured
calls in insertion order (stopping at the first replay error, as
`flushDelayedCommands` does); afterwards the queue is empty and permanently
flushed — a second `BeginFrame` replays nothing and subsequent calls execute
immediately instead of being deferred. -/
theorem c3_deferred_drain (cs : List Cmd) (w0 : World)
    (h0 : w0.flushed = false) (hq : w0.delayed = [])
    (hnp : ∀ c ∈ cs, cmdPanicsBeforeDefer c = false) :
    (cs.foldl issue w0).heap = w0.heap ∧
    (cs.foldl issue w0).delayed = cs ∧
    (cs.foldl issue w0).flushed = false ∧
    (BeginFrame (cs.foldl issue w0)).1.heap = (execList w0.heap cs).1 ∧
    (BeginFrame (cs.foldl issue w0)).1.delayed = [] ∧
    (BeginFrame (cs.foldl issue w0)).1.flushed = true ∧
    BeginFrame (BeginFrame (cs.foldl issue w0)).1 =
      ((BeginFrame (cs.foldl issue w0)).1, none) ∧
    (∀ c, cmdPanicsBeforeDefer c = false →
      issue (BeginFrame (cs.foldl issue w0)).1 c =
        { (BeginFrame (cs.foldl issue w0)).1 with
          heap := (execCmd (BeginFrame (cs.foldl issue w0)).1.heap c).1 }) := by
  rw [issue_capture cs w0 h0 hnp, hq]
  refine ⟨rfl, rfl, h0, ?_, ?_, ?_, ?_, ?_⟩
  · rw [BeginFrame_eq]
    rfl
  · rw [BeginFrame_eq]
  · rw [BeginFrame_eq]
  · rw [BeginFrame_eq, BeginFrame_eq]
    rfl
  · intro c hc
    rw [BeginFrame_eq]
    rw [issue, if_neg (by rw [hc]; simp), if_neg (by simp)]

theorem c3_deferred_drain_witness :
    (([Cmd.fill 0 ⟨1, 2, 3, 4⟩].foldl issue
      { heap := fun _ => mkImage 1 1, delayed := [], flushed := false }).delayed =
        [Cmd.fill 0 ⟨1, 2, 3, 4⟩]) ∧
    (BeginFrame ([Cmd.fill 0 ⟨1, 2, 3, 4⟩].foldl issue
      { heap := fun _ => mkImage 1 1, delayed := [],
        flushed := false })).1.flushed = true :=
  ⟨(c3_deferred_drain [Cmd.fill 0 ⟨1, 2, 3, 4⟩]
      { heap := fun _ => mkImage 1 1, delayed := [], flushed := false }
      rfl rfl (by decide)).2.1,
    (c3_deferred_drain [Cmd.fill 0 ⟨1, 2, 3, 4⟩]
      { heap := fun _ => mkImage 1 1, delayed := [], flushed := false }
      rfl rfl (by decide)).2.2.2.2.2.1⟩

theorem disjoint_symm (u v : PWrite) (h : u.disjoint v) : v.disjoint u := by
  rw [PWrite.disjoint] at *
  omega

theorem covers_disjoint (W : Nat) (u v : PWrite) (hd : u.disjoint v) (b : Nat)
    (hu : inRegion W u.x u.y u.w u.h b) : ¬inRegion W v.x v.y v.w v.h b := by
  rw [PWrite.disjoint] at hd
  rw [inRegion] at hu ⊢
  omega

theorem Image_ext (a b : Image) (h1 : a.img = b.img) (h2 : a.width = b.width)
    (h3 : a.height = b.height) (h4 : a.hasFill = b.hasFill)
    (h5 : a.fillColor = b.fillColor) (h6 : a.pixels = b.pixels)
    (h7 : a.needsToResolvePixels = b.needsToResolvePixels) : a = b := by
  cases a
  cases b
  have e1 : _ = _ := h1
  have e2 : _ = _ := h2
  have e3 : _ = _ := h3
  have e4 : _ = _ := h4
  have e5 : _ = _ := h5
  have e6 : _ = _ := h6
  have e7 : _ = _ := h7
  simp only [] at e1 e2 e3 e4 e5 e6 e7
  subst e1 e2 e3 e4 e5 e6 e7
  rfl

/-- Sequential application of pairwise-disjoint in-bounds strictly partial
writes to a cached image: the result is the same image with a spliced cache
in which each written rectangle holds its own buffer's bytes and every other
byte keeps its prior value. -/
theorem applyWrites_char (ws : List PWrite) (i : Image) (cache : List Nat)
    (hf : i.hasFill = false) (hp : i.pixels = some cache)
    (hc : cache.length = 4 * (i.width * i.height))
    (hws : ∀ u ∈ ws, u.x + u.w ≤ i.width ∧ u.y + u.h ≤ i.height ∧
      u.buf.length = 4 * (u.w * u.h) ∧
      ¬(u.x = 0 ∧ u.y = 0 ∧ u.w = i.width ∧ u.h = i.height))
    (hdis : ws.Pairwise PWrite.disjoint) :
    ∃ cache', applyWrites i ws = { i with
        pixels := some cache',
        needsToResolvePixels :=
          if ws.isEmpty then i.needsToResolvePixels else true } ∧
      cache'.length = cache.length ∧
      (∀ b, (∀ u ∈ ws, ¬inRegion i.width u.x u.y u.w u.h b) →
        cache'[b]? = cache[b]?) ∧
      (∀ b u, u ∈ ws → inRegion i.width u.x u.y u.w u.h b →
        cache'[b]? = u.buf[regionIdx i.width u.x u.y u.w b]?) := by
  induction ws generalizing i cache with
  | nil =>
    refine ⟨cache, ?_, rfl, fun b _ => rfl, fun b u hu => absurd hu (by simp)⟩
    exact Image_ext _ _ rfl rfl rfl rfl rfl hp rfl
  | cons u ws ih =>
    obtain ⟨hbx, hby, hbl, hbp⟩ := hws u (List.mem_cons_self u ws)
    obtain ⟨c₁, heq₁, hlen₁, hchar₁⟩ :=
      ReplacePixels_partial_cached i cache u.buf u.x u.y u.w u.h
        hf hp hc hbl hbx hby hbp
    cases hdis with
    | cons hd hdis' =>
      obtain ⟨cache', heqA, hlenA, hnotA, hcovA⟩ :=
        ih ({ i with pixels := some c₁, needsToResolvePixels := true }) c₁
          hf rfl (hlen₁.trans hc)
          (fun u' hu' => hws u' (List.mem_cons_of_mem u hu')) hdis'
      refine ⟨cache', ?_, hlenA.trans hlen₁, ?_, ?_⟩
      · have hstep : applyWrites i (u :: ws) = applyWrites { i with pixels := some c₁, needsToResolvePixels := true } ws := by
          show applyWrites (i.ReplacePixels u.buf (u.x : Int) (u.y : Int) (u.w : Int) (u.h : Int)).2 ws = _
          rw [heq₁]
        rw [hstep, heqA]
        refine Image_ext _ _ rfl rfl rfl rfl rfl rfl ?_
        cases ws <;> rfl
      · intro b hnone
        rw [hnotA b (fun u' hu' => hnone u' (List.mem_cons_of_mem u hu')),
          hchar₁ b, if_neg (hnone u (List.mem_cons_self u ws))]
      · intro b u' hu' hcov
        rcases List.mem_cons.mp hu' with rfl | hmem
        · rw [hnotA b (fun v hv => covers_disjoint i.width u' v (hd v hv) b hcov),
            hchar₁ b, if_pos hcov]
        · exact hcovA b u' hmem hcov

/-- C8: for every set of partial `ReplacePixels(buf, x, y, w, h)` calls whose
regions are pairwise disjoint and in bounds, issuing them in any order
followed by a full `Pixels` read yields the same composite image: each
written sub-rectangle holds its own buffer's bytes and every untouched byte
keeps its prior value, and any permutation of the write sequence produces
the identical image. -/
theorem c8_disjoint_partial_writes (i : Image) (cache : List Nat) (ws : List PWrite)
    (hf : i.hasFill = false) (hp : i.pixels = some cache)
    (hc : cache.length = 4 * (i.width * i.height))
    (hws : ∀ u ∈ ws, u.x + u.w ≤ i.width ∧ u.y + u.h ≤ i.height ∧
      u.buf.length = 4 * (u.w * u.h) ∧
      ¬(u.x = 0 ∧ u.y = 0 ∧ u.w = i.width ∧ u.h = i.height))
    (hdis : ws.Pairwise PWrite.disjoint) :
    ∃ cache',
      (applyWrites i ws).Pixels 0 0 (i.width : Int) (i.height : Int) =
        (.ok cache', applyWrites i ws) ∧
      cache'.length = cache.length ∧
      (∀ b, (∀ u ∈ ws, ¬inRegion i.width u.x u.y u.w u.h b) →
        cache'[b]? = cache[b]?) ∧
      (∀ b u, u ∈ ws → inRegion i.width u.x u.y u.w u.h b →
        cache'[b]? = u.buf[regionIdx i.width u.x u.y u.w b]?) ∧
      (∀ ws₂, List.Perm ws₂ ws → applyWrites i ws₂ = applyWrites i ws) := by
  obtain ⟨cache', heq, hlen, hnot, hcov⟩ := applyWrites_char ws i cache hf hp hc hws hdis
  refine ⟨cache', ?_, hlen, hnot, hcov, ?_⟩
  · rw [heq]
    exact Pixels_full_cached _ cache' hf rfl (hlen.trans hc)
  · intro ws₂ hperm
    obtain ⟨cacheB, heqB, hlenB, hnotB, hcovB⟩ :=
      applyWrites_char ws₂ i cache hf hp hc
        (fun u hu => hws u (hperm.mem_iff.mp hu))
        ((List.Perm.pairwise_iff (by intro a b h; exact disjoint_symm a b h)
          hperm).mpr hdis)
    have hBC : cacheB = cache' := by
      apply List.ext_getElem?
      intro b
      by_cases hcb : ∃ u ∈ ws, inRegion i.width u.x u.y u.w u.h b
      · obtain ⟨u, hu, hub⟩ := hcb
        rw [hcovB b u (hperm.mem_iff.mpr hu) hub, hcov b u hu hub]
      · push_neg at hcb
        rw [hnotB b (fun u hu => hcb u (hperm.mem_iff.mp hu)), hnot b hcb]
    have hEmp : ws₂.isEmpty = ws.isEmpty := by
      cases ws₂ <;> cases ws <;>
        first
        | rfl
        | exact absurd hperm.length_eq (by simp)
    rw [heqB, heq, hBC, hEmp]

theorem c8_disjoint_partial_writes_witness :
    ∃ cache',
      (applyWrites c8img [c8row]).Pixels 0 0 (c8img.width : Int) (c8img.height : Int) =
        (.ok cache', applyWrites c8img [c8row]) ∧
      cache'.length = (List.range 16).length ∧
      (∀ b, (∀ u ∈ [c8row], ¬inRegion c8img.width u.x u.y u.w u.h b) →
        cache'[b]? = (List.range 16)[b]?) ∧
      (∀ b u, u ∈ [c8row] → inRegion c8img.width u.x u.y u.w u.h b →
        cache'[b]? = u.buf[regionIdx c8img.width u.x u.y u.w b]?) ∧
      (∀ ws₂, List.Perm ws₂ [c8row] → applyWrites c8img ws₂ = applyWrites c8img [c8row]) :=
  c8_disjoint_partial_writes c8img (List.range 16) [c8row]
    (by decide) (by decide) (by decide) (by decide)
    (List.Pairwise.cons (by intro v hv; simp at hv) List.Pairwise.nil)
